import Mathlib

/-!
Verification development for the vectorized arithmetic evaluation core in
`dbms/include/DB/Functions/FunctionsArithmetic.h`.

Machine integers are modelled as unbounded `Int` together with an explicit
two's-complement wrap at the width of the corresponding C++ type; C++ integer
division is truncated division (`Int.tdiv` / `Int.tmod`).  Fallible code
(`throw Exception`) is modelled with `Except ArithError`.  Columns and blocks
are modelled as plain inductive values; the dispatcher (`execute`,
`getReturnType`) is translated function-by-function from the source.

`NumberTraits.h` and `libdivide.h` are not part of the sources; the few type
functions and the divider taken from them are modelled from the spec and
marked `Modelled from the spec:` in their doc comments.
-/

/-- Scalar storage tags of the engine: the eight machine integer types and the
two floating types (`FieldType`s of the data types in the source). -/
inductive NumTag
  | u8 | u16 | u32 | u64 | i8 | i16 | i32 | i64 | f32 | f64
deriving DecidableEq, Repr, Fintype

/-- Bit width of a scalar tag (`sizeof(T) * 8`). -/
def NumTag.width : NumTag → Nat
  | .u8 => 8  | .u16 => 16 | .u32 => 32 | .u64 => 64
  | .i8 => 8  | .i16 => 16 | .i32 => 32 | .i64 => 64
  | .f32 => 32 | .f64 => 64

/-- C++ `std::is_signed` for the scalar tag (true for the floating tags, as in
C++). -/
def NumTag.sgn : NumTag → Bool
  | .u8 | .u16 | .u32 | .u64 => false
  | _ => true

/-- Whether the tag is one of the eight machine integer types. -/
def NumTag.isInt : NumTag → Bool
  | .f32 | .f64 => false
  | _ => true

/-- The integer tag with the given signedness and width (widths 8/16/32/64). -/
def mkIntTag (s : Bool) (w : Nat) : NumTag :=
  match s, w with
  | false, 8 => .u8 | false, 16 => .u16 | false, 32 => .u32 | false, 64 => .u64
  | true, 8 => .i8 | true, 16 => .i16 | true, 32 => .i32 | true, 64 => .i64
  | _, _ => .i64

/-- `std::numeric_limits<T>::min()` for an integer tag. -/
def intMin (t : NumTag) : Int :=
  if t.sgn then -(2 ^ (t.width - 1)) else 0

/-- `std::numeric_limits<T>::max()` for an integer tag. -/
def intMax (t : NumTag) : Int :=
  if t.sgn then 2 ^ (t.width - 1) - 1 else 2 ^ t.width - 1

/-- The value `x` is representable in the integer type `t`. -/
def inRange (t : NumTag) (x : Int) : Prop :=
  intMin t ≤ x ∧ x ≤ intMax t

instance (t : NumTag) (x : Int) : Decidable (inRange t x) := by
  unfold inRange; infer_instance

/-- Two's-complement wrap of an unbounded integer at the width of `t`; this is
what a C++ integer conversion to `t` computes on this platform (and, for
signed overflow inside expressions, what the generated code computes). -/
def wrap (t : NumTag) (x : Int) : Int :=
  if t.sgn then (x + 2 ^ (t.width - 1)) % 2 ^ t.width - 2 ^ (t.width - 1)
  else x % 2 ^ t.width

/-- Integer promotion (C++): types narrower than `int` are promoted to the
32-bit signed `int` before arithmetic. -/
def promoteTag (t : NumTag) : NumTag :=
  if t.width < 32 then .i32 else t

/-- Usual arithmetic conversions of C++ for two integer operand types: both are
integer-promoted, then the common type is the wider one; at equal width the
unsigned type wins. -/
def commonType (t1 t2 : NumTag) : NumTag :=
  let p1 := promoteTag t1
  let p2 := promoteTag t2
  if p1.width = p2.width then (if p1.sgn && p2.sgn then p1 else mkIntTag false p1.width)
  else if p1.width < p2.width then p2 else p1

/-- Errors thrown by the arithmetic core (`ErrorCodes::ILLEGAL_DIVISION`), plus
an explicit marker for undefined behavior of the external divider when it is
constructed from a zero value (libdivide gives no defined result there). -/
inductive ArithError
  | divisionByZero
  | divisionOverflow
  | dividerUB
deriving DecidableEq, Repr

deriving instance DecidableEq for Except

/-- Translation of `throwIfDivisionLeadsToFPE` (FunctionsArithmetic.h:129):
first the divisor is checked against zero, then the `MIN / -1` pair is checked
when both operand types are signed. -/
def throwIfDivisionLeadsToFPE (ta tb : NumTag) (a b : Int) : Option ArithError :=
  if b = 0 then some .divisionByZero
  else if ta.sgn && tb.sgn && a = intMin ta && b = -1 then some .divisionOverflow
  else none

/-- Modelled from the spec: `NumberTraits::ToInteger` is not under `src/`; per
§3 the modulo projection keeps integer types and projects floating types to the
64-bit signed integer type. -/
def toIntegerTag (t : NumTag) : NumTag :=
  if t.isInt then t else .i64

/-- Modelled from the spec: `NumberTraits::ResultOfIntegerDivision` is not
under `src/`.  The SSE store loop of `DivideIntegralByConstantImpl` (lines
807-818) advances the output pointer in lock-step with the `A`-typed input, so
the result scalar has the width of `A`; signedness follows §3 (signed if
either operand is signed). -/
def resultOfIntegerDivision (ta tb : NumTag) : NumTag :=
  mkIntTag (ta.sgn || tb.sgn) ta.width

/-- Modelled from the spec: `NumberTraits::ResultOfModulo` is not under
`src/`; per §3 the result width and signedness of `%` are those of the left
operand after integer projection. -/
def resultOfModulo (ta _tb : NumTag) : NumTag :=
  toIntegerTag ta

/-- Translation of `DivideIntegralImpl::apply` (FunctionsArithmetic.h:145):
fault check on the raw operands, then `static_cast<Result>(a) / b` under the
usual arithmetic conversions.  `rt` is the caller-provided `Result` type. -/
def DivideIntegralImpl_apply (ta tb rt : NumTag) (a b : Int) : Except ArithError Int :=
  match throwIfDivisionLeadsToFPE ta tb a b with
  | some e => .error e
  | none =>
    .ok (wrap rt (wrap (commonType rt tb)
      ((wrap (commonType rt tb) (wrap rt a)).tdiv (wrap (commonType rt tb) b))))

/-- Translation of `ModuloImpl::apply` (FunctionsArithmetic.h:158): both
operands are converted to `ToInteger<A>`, the fault check runs on those
projections, and the remainder of the projections is returned (converted to
the caller-provided `Result` type `rt`). -/
def ModuloImpl_apply (ta rt : NumTag) (a b : Int) : Except ArithError Int :=
  match throwIfDivisionLeadsToFPE (toIntegerTag ta) (toIntegerTag ta)
      (wrap (toIntegerTag ta) a) (wrap (toIntegerTag ta) b) with
  | some e => .error e
  | none => .ok (wrap rt ((wrap (toIntegerTag ta) a).tmod (wrap (toIntegerTag ta) b)))

/-- Truncation of a rational toward zero, the value computed by a C++
floating-to-integer conversion when the result is representable. -/
def ratTrunc (q : ℚ) : Int :=
  q.num.tdiv q.den

/-- Translation of `ModuloImpl::apply` instantiated with a floating left
operand type: `ToInteger<A>` projects both operands to the 64-bit signed
integer by truncation, the fault check and the remainder run on the
projections. -/
def ModuloImpl_apply_floatLeft (a b : ℚ) : Except ArithError Int :=
  match throwIfDivisionLeadsToFPE .i64 .i64 (ratTrunc a) (ratTrunc b) with
  | some e => .error e
  | none => .ok ((wrap .i64 (ratTrunc a)).tmod (wrap .i64 (ratTrunc b)))

/-- Loop skeleton of the block kernels: apply `f` at indices `i, i+1, ...`
(`k` iterations), writing each result into the output buffer `c`, stopping at
the first exception as the C++ `throw` does. -/
def applyLoopGo (f : Nat → Except ArithError Int) :
    Nat → Nat → List Int → Except ArithError (List Int)
  | 0, _, c => .ok c
  | k + 1, i, c =>
    match f i with
    | .error e => .error e
    | .ok v => applyLoopGo f k (i + 1) (c.set i v)

/-- Run the kernel loop over indices `0 ≤ i < size` against buffer `c`. -/
def applyLoop (f : Nat → Except ArithError Int) (size : Nat) (c : List Int) :
    Except ArithError (List Int) :=
  applyLoopGo f size 0 c

/-- Non-throwing loop skeleton: write `g i` at indices `i, i+1, ...`
(`k` iterations) into the buffer. -/
def writeLoopGo (g : Nat → Int) : Nat → Nat → List Int → List Int
  | 0, _, c => c
  | k + 1, i, c => writeLoopGo g k (i + 1) (c.set i (g i))

/-- Write `g i` at indices `0 ≤ i < size` of the buffer. -/
def writeLoop (g : Nat → Int) (size : Nat) (c : List Int) : List Int :=
  writeLoopGo g size 0 c

/-- Translation of `BinaryOperationImplBase::vector_vector`
(FunctionsArithmetic.h:23): `c[i] = apply(a[i], b[i])` for `i < a.size()`.
The kernel is generic in the scalar op, exactly as the C++ template is. -/
def vector_vector (ap : Int → Int → Except ArithError Int)
    (a b c : List Int) : Except ArithError (List Int) :=
  applyLoop (fun i => ap (a.getD i 0) (b.getD i 0)) a.length c

/-- Translation of `BinaryOperationImplBase::vector_constant`
(FunctionsArithmetic.h:30). -/
def vector_constant (ap : Int → Int → Except ArithError Int)
    (a : List Int) (b : Int) (c : List Int) : Except ArithError (List Int) :=
  applyLoop (fun i => ap (a.getD i 0) b) a.length c

/-- Translation of `BinaryOperationImplBase::constant_vector`
(FunctionsArithmetic.h:37): the loop runs over `b.size()`. -/
def constant_vector (ap : Int → Int → Except ArithError Int)
    (a : Int) (b c : List Int) : Except ArithError (List Int) :=
  applyLoop (fun i => ap a (b.getD i 0)) b.length c

/-- Translation of `BinaryOperationImplBase::constant_constant`
(FunctionsArithmetic.h:44). -/
def constant_constant (ap : Int → Int → Except ArithError Int)
    (a b : Int) : Except ArithError Int :=
  ap a b

/-- Modelled from the spec: `libdivide.h` is external.  Per §4.D the divider
precomputed from a non-zero constant `d` makes `a / divider` produce the same
result as `a / d` under two's-complement semantics (type `A`); constructing a
divider from `0` has no defined result. -/
def libdivideDiv (ta : NumTag) (d a : Int) : Int :=
  wrap ta (a.tdiv d)

/-- Translation of `DivideIntegralByConstantImpl::vector_constant`
(FunctionsArithmetic.h:784).  The `b == -1` branch negates the *output*
buffer (`c[i] = -c[i]`), whose contents at that point are whatever the caller
left there.  Otherwise the SSE prefix and the scalar tail both compute the
per-element `a[i] / divider`, modelled as one per-element loop; the divider is
built from `b` narrowed to `A` (the `libdivide::divider<A>` constructor takes
an `A`). -/
def DivideIntegralByConstantImpl_vector_constant (ta tb : NumTag)
    (a : List Int) (b : Int) (c : List Int) : Except ArithError (List Int) :=
  if b = 0 then .error .divisionByZero
  else if tb.sgn && b = -1 then
    .ok (writeLoop (fun i => wrap (resultOfIntegerDivision ta tb) (-(c.getD i 0))) a.length c)
  else
    if wrap ta b = 0 then .error .dividerUB
    else .ok (writeLoop (fun i => libdivideDiv ta (wrap ta b) (a.getD i 0)) a.length c)

/-- Translation of `ModuloByConstantImpl::vector_constant`
(FunctionsArithmetic.h:835).  For `b` not `0`, `±1` each element is
`a[i] - (a[i] / divider) * b`, with the multiplication and subtraction in the
common type of `A` and `B` and the final store converted to the result type. -/
def ModuloByConstantImpl_vector_constant (ta tb : NumTag)
    (a : List Int) (b : Int) (c : List Int) : Except ArithError (List Int) :=
  if b = 0 then .error .divisionByZero
  else if (tb.sgn && b = -1) || b = 1 then
    .ok (writeLoop (fun _ => 0) a.length c)
  else
    if wrap ta b = 0 then .error .dividerUB
    else
      .ok (writeLoop (fun i =>
        wrap (resultOfModulo ta tb) (wrap (commonType ta tb)
          (a.getD i 0 - wrap (commonType ta tb)
            (libdivideDiv ta (wrap ta b) (a.getD i 0) * b)))) a.length c)

/-- The sixteen `BinaryOperationImpl` specializations routing
`DivideIntegralImpl` to `DivideIntegralByConstantImpl`
(FunctionsArithmetic.h:867-885), transcribed pair by pair. -/
def divideIntegralSpecializations : List (NumTag × NumTag) :=
  [ (.u64, .u8), (.u64, .u16), (.u64, .u32), (.u64, .u64),
    (.u32, .u8), (.u32, .u16), (.u32, .u32), (.u32, .u64),
    (.i64, .i8), (.i64, .i16), (.i64, .i32), (.i64, .i64),
    (.i32, .i8), (.i32, .i16), (.i32, .i32), (.i32, .i64) ]

/-- The sixteen `BinaryOperationImpl` specializations routing `ModuloImpl` to
`ModuloByConstantImpl` (FunctionsArithmetic.h:888-906). -/
def moduloSpecializations : List (NumTag × NumTag) :=
  [ (.u64, .u8), (.u64, .u16), (.u64, .u32), (.u64, .u64),
    (.u32, .u8), (.u32, .u16), (.u32, .u32), (.u32, .u64),
    (.i64, .i8), (.i64, .i16), (.i64, .i32), (.i64, .i64),
    (.i32, .i8), (.i32, .i16), (.i32, .i32), (.i32, .i64) ]

/-- Declared (catalog-visible) data types enumerated by the dispatcher, in the
fixed candidate order of the source. -/
inductive TypeTag
  | date | dateTime
  | uint8 | uint16 | uint32 | uint64
  | int8 | int16 | int32 | int64
  | float32 | float64
deriving DecidableEq, Repr, Fintype

/-- The fixed candidate list walked by `getReturnType` (lines 601-612),
`checkLeftType` (404-415), `execute` (622-633) and `executeLeftTypeImpl`
(562-573): `{Date, DateTime, UInt8..64, Int8..64, Float32, Float64}`. -/
def candidateTypes : List TypeTag :=
  [.date, .dateTime, .uint8, .uint16, .uint32, .uint64,
   .int8, .int16, .int32, .int64, .float32, .float64]

/-- Source `IsDateOrDateTime` (lines 288-290). -/
def isDateOrDateTime : TypeTag → Bool
  | .date | .dateTime => true
  | _ => false

/-- Source `IsIntegral` (lines 269-277): the eight integer data types; dates
and floats are not integral. -/
def isIntegralType : TypeTag → Bool
  | .uint8 | .uint16 | .uint32 | .uint64 | .int8 | .int16 | .int32 | .int64 => true
  | _ => false

/-- Source `IsFloating` (lines 279-281). -/
def isFloatingType : TypeTag → Bool
  | .float32 | .float64 => true
  | _ => false

/-- Source `IsNumeric` (line 283). -/
def isNumericType (t : TypeTag) : Bool :=
  isIntegralType t || isFloatingType t

/-- Storage scalar (`FieldType`) of each declared type: `Date` is stored as
`u16` (days), `DateTime` as `u32` (seconds), numerics as themselves. -/
def fieldType : TypeTag → NumTag
  | .date => .u16
  | .dateTime => .u32
  | .uint8 => .u8 | .uint16 => .u16 | .uint32 => .u32 | .uint64 => .u64
  | .int8 => .i8 | .int16 => .i16 | .int32 => .i32 | .int64 => .i64
  | .float32 => .f32 | .float64 => .f64

/-- Source `DataTypeFromFieldType`: the numeric data type whose storage is the
given scalar. -/
def dataTypeFromField : NumTag → TypeTag
  | .u8 => .uint8 | .u16 => .uint16 | .u32 => .uint32 | .u64 => .uint64
  | .i8 => .int8 | .i16 => .int16 | .i32 => .int32 | .i64 => .int64
  | .f32 => .float32 | .f64 => .float64

/-- The binary operators of the core. -/
inductive BinOp
  | plus | minus | multiply | divideFloating | divideIntegral | modulo
  | bitAnd | bitOr | bitXor | bitShiftLeft | bitShiftRight
deriving DecidableEq, Repr, Fintype

/-- Modelled from the spec: `NumberTraits::ResultOfAdditionMultiplication`
(§3: width doubled and capped at 64, signed if either is signed, floating
dominates and lands on the 64-bit float). -/
def resultOfAdditionMultiplication (a b : NumTag) : NumTag :=
  if a.isInt && b.isInt then mkIntTag (a.sgn || b.sgn) (min 64 (2 * max a.width b.width))
  else .f64

/-- Modelled from the spec: `NumberTraits::ResultOfSubtraction` (§3: as
addition but always signed). -/
def resultOfSubtraction (a b : NumTag) : NumTag :=
  if a.isInt && b.isInt then mkIntTag true (min 64 (2 * max a.width b.width))
  else .f64

/-- Modelled from the spec: `NumberTraits::ResultOfFloatingPointDivision`
(§3: the 64-bit float if either operand is 64 bits wide or a 64-bit float,
else the 32-bit float). -/
def resultOfFloatingPointDivision (a b : NumTag) : NumTag :=
  if 32 < a.width || 32 < b.width then .f64 else .f32

/-- Modelled from the spec: `NumberTraits::ResultOfBit` (§3: integer operands
only — floating operands make the operation invalid; width is the maximum,
signed if either is signed). -/
def resultOfBit (a b : NumTag) : Option NumTag :=
  if a.isInt && b.isInt then some (mkIntTag (a.sgn || b.sgn) (max a.width b.width))
  else none

/-- Result scalar of `Op<T0, T1>` for every operator, `none` meaning the
invalid sentinel.  The floating cases of `intDiv` follow §3 (integer
projection of the larger side). -/
def opResultTag : BinOp → NumTag → NumTag → Option NumTag
  | .plus, a, b => some (resultOfAdditionMultiplication a b)
  | .minus, a, b => some (resultOfSubtraction a b)
  | .multiply, a, b => some (resultOfAdditionMultiplication a b)
  | .divideFloating, a, b => some (resultOfFloatingPointDivision a b)
  | .divideIntegral, a, b =>
    some (if a.isInt && b.isInt then resultOfIntegerDivision a b
          else mkIntTag true (max a.width b.width))
  | .modulo, a, b => some (resultOfModulo a b)
  | .bitAnd, a, b => resultOfBit a b
  | .bitOr, a, b => resultOfBit a b
  | .bitXor, a, b => resultOfBit a b
  | .bitShiftLeft, a, b => resultOfBit a b
  | .bitShiftRight, a, b => resultOfBit a b

/-- Value of a C++ expression `static_cast<Result>(a) op b` for a wrapping
integer operator `f`: the operands go through the usual arithmetic
conversions against the common type, the result is converted to `Result`. -/
def cppBinValue (rt tb : NumTag) (f : Int → Int → Int) (a b : Int) : Int :=
  let ct := commonType rt tb
  wrap rt (wrap ct (f (wrap ct (wrap rt a)) (wrap ct b)))

/-- Scalar `apply` of `Op<T0, T1>` with a caller-provided `Result` type, as
each `*Impl` struct defines it.  Floating-point value semantics are outside
this model (the claims under proof are structural for floating columns): the
floating cases return a fixed value and, like the C++ code, never throw; the
integer cases are translated from the source.  Shifts by an amount outside
`[0, width)` are undefined in C++ and modelled as a fixed value. -/
def binOpApply : BinOp → NumTag → NumTag → NumTag → Int → Int → Except ArithError Int
  | .plus, _, t1, rt => fun a b =>
    if rt.isInt && t1.isInt then .ok (cppBinValue rt t1 (fun x y => x + y) a b) else .ok 0
  | .minus, _, t1, rt => fun a b =>
    if rt.isInt && t1.isInt then .ok (cppBinValue rt t1 (fun x y => x - y) a b) else .ok 0
  | .multiply, _, t1, rt => fun a b =>
    if rt.isInt && t1.isInt then .ok (cppBinValue rt t1 (fun x y => x * y) a b) else .ok 0
  | .divideFloating, _, _, _ => fun _ _ => .ok 0
  | .divideIntegral, t0, t1, rt => fun a b =>
    if t0.isInt && t1.isInt && rt.isInt then DivideIntegralImpl_apply t0 t1 rt a b else .ok 0
  | .modulo, t0, t1, rt => fun a b =>
    if t0.isInt && t1.isInt && rt.isInt then ModuloImpl_apply t0 rt a b else .ok 0
  | .bitAnd, _, t1, rt => fun a b =>
    .ok (cppBinValue rt t1 (fun x y => Int.land x y) a b)
  | .bitOr, _, t1, rt => fun a b =>
    .ok (cppBinValue rt t1 (fun x y => Int.lor x y) a b)
  | .bitXor, _, t1, rt => fun a b =>
    .ok (cppBinValue rt t1 (fun x y => Int.xor x y) a b)
  | .bitShiftLeft, _, t1, rt => fun a b =>
    .ok (if 0 ≤ wrap rt b && wrap rt b < (rt.width : Int)
      then cppBinValue rt t1 (fun x y => x * 2 ^ y.toNat) a b else 0)
  | .bitShiftRight, _, t1, rt => fun a b =>
    .ok (if 0 ≤ wrap rt b && wrap rt b < (rt.width : Int)
      then cppBinValue rt t1 (fun x y => x / 2 ^ y.toNat) a b else 0)

/-- Selection of the `vector_constant` kernel through `BinaryOperationImpl`:
the sixteen specializations of lines 867-906 override it for `intDiv` and
`modulo` (with the default `Result`, which is the only instantiation reached
for these operators); everything else uses the base kernel.  Only
`vector_constant` is overridden — the other three shapes always come from
`BinaryOperationImplBase`. -/
def BinaryOperationImpl_vector_constant (op : BinOp) (t0 t1 rt : NumTag)
    (a : List Int) (b : Int) (c : List Int) : Except ArithError (List Int) :=
  if op = .divideIntegral ∧ (t0, t1) ∈ divideIntegralSpecializations then
    DivideIntegralByConstantImpl_vector_constant t0 t1 a b c
  else if op = .modulo ∧ (t0, t1) ∈ moduloSpecializations then
    ModuloByConstantImpl_vector_constant t0 t1 a b c
  else
    vector_constant (binOpApply op t0 t1 rt) a b c

/-- Source `DateBinaryOperationTraits` (lines 299-341), the date overlay of
the promotion: `Date/DateTime + Integral`, `Integral + Date/DateTime`,
`Date - Date` (same type, to `Int32`), `Date/DateTime - Integral`; everything
else is the invalid sentinel. -/
def DateBinaryOperationTraits (op : BinOp) (l r : TypeTag) : Option TypeTag :=
  if op = .plus then
    if isDateOrDateTime l && isIntegralType r then some l
    else if isIntegralType l && isDateOrDateTime r then some r
    else none
  else if op = .minus then
    if isDateOrDateTime l then
      if l = r then some .int32
      else if isIntegralType r then some l
      else none
    else none
  else none

/-- Source `BinaryOperationTraits` (lines 345-364): the date overlay when a
date type is involved, otherwise the numeric promotion mapped back to a data
type. -/
def BinaryOperationTraits (op : BinOp) (l r : TypeTag) : Option TypeTag :=
  if isDateOrDateTime l || isDateOrDateTime r then DateBinaryOperationTraits op l r
  else (opResultTag op (fieldType l) (fieldType r)).map dataTypeFromField

/-- First hit of an `Option`-valued test over a candidate list — the shape of
every `||`-chain in the dispatcher. -/
def firstSome {α β : Type} (f : α → Option β) : List α → Option β
  | [] => none
  | x :: xs =>
    match f x with
    | some b => some b
    | none => firstSome f xs

/-- Source `checkRightType` (lines 388-397): the candidate matches the
declared right type exactly; an invalid promotion returns `false` and the
chain keeps scanning (no later candidate can match, so the walk fails). -/
def checkRightType (op : BinOp) (l : TypeTag) (tR : TypeTag) (r : TypeTag) :
    Option TypeTag :=
  if tR = r then
    match BinaryOperationTraits op l r with
    | some res => some res
    | none => none
  else none

/-- Source `checkLeftType` (lines 399-422): on a declared-left match, walk the
right candidate list; an exhausted right walk is the thrown `Illegal type of
second argument` (inner `none`). -/
def checkLeftType (op : BinOp) (tL tR : TypeTag) (l : TypeTag) :
    Option (Option TypeTag) :=
  if tL = l then some (firstSome (checkRightType op l tR) candidateTypes) else none

/-- Source `FunctionBinaryArithmetic::getReturnType` (lines 592-617): arity
check, then the left candidate walk; every thrown exception is `none`. -/
def getReturnType (op : BinOp) (args : List TypeTag) : Option TypeTag :=
  if args.length = 2 then
    match firstSome (checkLeftType op (args.getD 0 .uint8) (args.getD 1 .uint8)) candidateTypes with
    | some r => r
    | none => none
  else none

/-- A column: a materialized vector of one scalar type, or a broadcast
constant with a logical length. -/
inductive Col
  | vec (tag : NumTag) (data : List Int)
  | const (tag : NumTag) (len : Nat) (val : Int)
deriving DecidableEq, Repr

/-- Storage scalar of a column. -/
def Col.tag : Col → NumTag
  | .vec t _ => t
  | .const t _ _ => t

/-- Logical length of a column. -/
def Col.len : Col → Nat
  | .vec _ d => d.length
  | .const _ n _ => n

/-- One block position: `(declared_type, column, name)`. -/
structure BlockPos where
  type : TypeTag
  col : Col
  name : String
deriving DecidableEq, Repr

/-- A block is an ordered collection of positions. -/
abbrev Block := List BlockPos

/-- Placeholder position for out-of-bounds access. -/
def defaultBlockPos : BlockPos :=
  ⟨.uint8, .vec .u8 [], ""⟩

/-- Source `block.getByPosition(p)`. -/
def getByPosition (bl : Block) (p : Nat) : BlockPos :=
  bl.getD p defaultBlockPos

/-- Source `block.getByPosition(p).column = c`: only the column component of
position `p` is replaced. -/
def setColumn (bl : Block) (p : Nat) (c : Col) : Block :=
  bl.set p { getByPosition bl p with col := c }

/-- Errors thrown by `execute`: the two `ILLEGAL_COLUMN` exceptions of the
walk, and a propagated division fault. -/
inductive ExecErr
  | illegalColumnFirstArg
  | illegalColumnSecondArg
  | arith (e : ArithError)
deriving DecidableEq, Repr

/-- The left column as matched by `executeLeftTypeImpl` (a `ColumnVector<T0>`
or a `ColumnConst<T0>`). -/
inductive MatchedCol
  | vecCol (data : List Int)
  | constCol (len : Nat) (val : Int)
deriving DecidableEq, Repr

/-- Translation of the two `executeRightTypeImpl` overloads (lines 470-526):
the right column is matched by storage against `T1`; the output buffer is
sized from the left operand (`resize(col_left->getData().size())` /
`resize(col_left->size())`, modelled as a zero-filled buffer — `PODArray`
leaves it uninitialized); `constant_vector` then iterates over the right
length (an out-of-range write is out of the C++ buffer, modelled as a
no-op), and a kernel exception propagates.  `const/const` builds a constant
column of the left logical length. -/
def executeRightTypeImpl (op : BinOp) (t0 t1 rt : NumTag) (left : MatchedCol)
    (bl : Block) (arg1 result : Nat) : Option (Except ExecErr Block) :=
  match left with
  | .vecCol a =>
    match (getByPosition bl arg1).col with
    | .vec t dataR =>
      if t = t1 then some (
        match vector_vector (binOpApply op t0 t1 rt) a dataR (List.replicate a.length 0) with
        | .ok l => .ok (setColumn bl result (.vec rt l))
        | .error e => .error (.arith e))
      else none
    | .const t _ v =>
      if t = t1 then some (
        match BinaryOperationImpl_vector_constant op t0 t1 rt a v (List.replicate a.length 0) with
        | .ok l => .ok (setColumn bl result (.vec rt l))
        | .error e => .error (.arith e))
      else none
  | .constCol n v =>
    match (getByPosition bl arg1).col with
    | .vec t dataR =>
      if t = t1 then some (
        match constant_vector (binOpApply op t0 t1 rt) v dataR (List.replicate n 0) with
        | .ok l => .ok (setColumn bl result (.vec rt l))
        | .error e => .error (.arith e))
      else none
    | .const t _ w =>
      if t = t1 then some (
        match constant_constant (binOpApply op t0 t1 rt) v w with
        | .ok r => .ok (setColumn bl result (.const rt n r))
        | .error e => .error (.arith e))
      else none

/-- Translation of the two `executeRightType` overloads (lines 425-445) with
`executeRightTypeDispatch` (lines 448-467) inlined at the date leaf: when a
date type is involved the declared right type is checked and the date overlay
decides validity (`InvalidType` returns `false` and the chain continues);
for a numeric pair the column is matched purely by storage.  The numeric
overload reaching a kernel requires a constructible result scalar: an invalid
promotion's sentinel column never matches (Modelled from the spec, §4.A/§9 —
`NumberTraits`' sentinel is not under `src/`). -/
def executeRightType (op : BinOp) (l r : TypeTag) (left : MatchedCol)
    (bl : Block) (arg1 result : Nat) : Option (Except ExecErr Block) :=
  if isDateOrDateTime l || isDateOrDateTime r then
    if (getByPosition bl arg1).type = r then
      match DateBinaryOperationTraits op l r with
      | none => none
      | some res => executeRightTypeImpl op (fieldType l) (fieldType r) (fieldType res) left bl arg1 result
    else none
  else
    match opResultTag op (fieldType l) (fieldType r) with
    | none => none
    | some rt => executeRightTypeImpl op (fieldType l) (fieldType r) rt left bl arg1 result

/-- The right-hand `||`-chain inside `executeLeftTypeImpl` (lines 560-578):
an exhausted chain throws `Illegal column ... of second argument`. -/
def executeRightChain (op : BinOp) (l : TypeTag) (left : MatchedCol)
    (bl : Block) (arg1 result : Nat) : Except ExecErr Block :=
  match firstSome (fun r => executeRightType op l r left bl arg1 result) candidateTypes with
  | some res => res
  | none => .error .illegalColumnSecondArg

/-- Translation of `executeLeftTypeImpl<L, ColumnVector<T0>>` (lines
557-582): the left column must be a vector of `T0`. -/
def executeLeftTypeImpl_vec (op : BinOp) (l : TypeTag) (bl : Block)
    (arg0 arg1 result : Nat) : Option (Except ExecErr Block) :=
  match (getByPosition bl arg0).col with
  | .vec t d =>
    if t = fieldType l then some (executeRightChain op l (.vecCol d) bl arg1 result) else none
  | .const _ _ _ => none

/-- Translation of `executeLeftTypeImpl<L, ColumnConst<T0>>`. -/
def executeLeftTypeImpl_const (op : BinOp) (l : TypeTag) (bl : Block)
    (arg0 arg1 result : Nat) : Option (Except ExecErr Block) :=
  match (getByPosition bl arg0).col with
  | .vec _ _ => none
  | .const t n v =>
    if t = fieldType l then some (executeRightChain op l (.constCol n v) bl arg1 result) else none

/-- Translation of `executeLeftTypeDispatch` (lines 545-555): try the vector
column shape, then the constant shape. -/
def executeLeftTypeDispatch (op : BinOp) (l : TypeTag) (bl : Block)
    (arg0 arg1 result : Nat) : Option (Except ExecErr Block) :=
  match executeLeftTypeImpl_vec op l bl arg0 arg1 result with
  | some res => some res
  | none => executeLeftTypeImpl_const op l bl arg0 arg1 result

/-- Translation of the two `executeLeftType` overloads (lines 528-543): a
date candidate requires the declared left type to match; a numeric candidate
goes straight to the storage dispatch. -/
def executeLeftType (op : BinOp) (l : TypeTag) (bl : Block)
    (arg0 arg1 result : Nat) : Option (Except ExecErr Block) :=
  if isDateOrDateTime l then
    if (getByPosition bl arg0).type = l then executeLeftTypeDispatch op l bl arg0 arg1 result
    else none
  else
    executeLeftTypeDispatch op l bl arg0 arg1 result

/-- Translation of `FunctionBinaryArithmetic::execute` (lines 620-637): the
left candidate walk; exhaustion throws `Illegal column ... of first
argument`. -/
def execute (op : BinOp) (bl : Block) (arg0 arg1 result : Nat) :
    Except ExecErr Block :=
  match firstSome (fun l => executeLeftType op l bl arg0 arg1 result) candidateTypes with
  | some res => res
  | none => .error .illegalColumnFirstArg

/-- Logical length of a matched left column. -/
def MatchedCol.len : MatchedCol → Nat
  | .vecCol a => a.length
  | .constCol n _ => n

/-- View of a column as the matched-column sum (the cast that succeeded). -/
def matchedOf : Col → MatchedCol
  | .vec _ d => .vecCol d
  | .const _ n v => .constCol n v

/-- Structural success of an `execute` outcome: the call either returned
normally or failed on a runtime division fault; the two `ILLEGAL_COLUMN`
walks are the structural failures. -/
def structOkE : Except ExecErr Block → Bool
  | .ok _ => true
  | .error (.arith _) => true
  | .error .illegalColumnFirstArg => false
  | .error .illegalColumnSecondArg => false

/-! Basic facts about the machine-integer model. -/

theorem NumTag.width_pos (t : NumTag) : 0 < t.width := by
  cases t <;> decide

theorem two_pow_width_split (t : NumTag) :
    (2 : Int) ^ t.width = 2 ^ (t.width - 1) * 2 := by
  have h : t.width - 1 + 1 = t.width := by
    have := t.width_pos; omega
  calc (2 : Int) ^ t.width = 2 ^ (t.width - 1 + 1) := by rw [h]
  _ = 2 ^ (t.width - 1) * 2 := pow_succ 2 _

theorem wrap_range (t : NumTag) (x : Int) : inRange t (wrap t x) := by
  have hsplit := two_pow_width_split t
  have hpos : (0 : Int) < 2 ^ (t.width - 1) := by positivity
  have hpos2 : (0 : Int) < 2 ^ t.width := by positivity
  unfold inRange wrap intMin intMax
  cases ht : t.sgn <;> simp only [ht, if_true, if_false, Bool.false_eq_true]
  · constructor
    · exact Int.emod_nonneg x (by omega)
    · have := Int.emod_lt_of_pos x hpos2; omega
  · have h1 := Int.emod_nonneg (x + 2 ^ (t.width - 1))
      (show (2 : Int) ^ t.width ≠ 0 by omega)
    have h2 := Int.emod_lt_of_pos (x + 2 ^ (t.width - 1)) hpos2
    omega

theorem wrap_eq_of_inRange {t : NumTag} {x : Int} (h : inRange t x) : wrap t x = x := by
  have hsplit := two_pow_width_split t
  have hpos : (0 : Int) < 2 ^ (t.width - 1) := by positivity
  unfold inRange intMin intMax at h
  unfold wrap
  cases ht : t.sgn <;>
    simp only [ht, if_true, if_false, Bool.false_eq_true] at h ⊢
  · exact Int.emod_eq_of_lt h.1 (by omega)
  · have : (x + 2 ^ (t.width - 1)) % 2 ^ t.width = x + 2 ^ (t.width - 1) :=
      Int.emod_eq_of_lt (by omega) (by omega)
    omega

theorem intMin_nonpos (t : NumTag) : intMin t ≤ 0 := by
  have hpos : (0 : Int) < 2 ^ (t.width - 1) := by positivity
  unfold intMin
  cases t.sgn <;> simp only [if_true, if_false, Bool.false_eq_true] <;> omega

theorem intMax_nonneg (t : NumTag) : 0 ≤ intMax t := by
  have hpos : (0 : Int) < 2 ^ (t.width - 1) := by positivity
  have hpos2 : (0 : Int) < 2 ^ t.width := by positivity
  unfold intMax
  cases t.sgn <;> simp only [if_true, if_false, Bool.false_eq_true] <;> omega

theorem range_mono {s t : NumTag} {x : Int} (h1 : intMin t ≤ intMin s)
    (h2 : intMax s ≤ intMax t) (hx : inRange s x) : inRange t x :=
  ⟨le_trans h1 hx.1, le_trans hx.2 h2⟩

/-! Truncated division and remainder: sign and magnitude bounds. -/

theorem neg_tmod_left (a b : Int) : (-a).tmod b = -(a.tmod b) := by
  have h1 := Int.tmod_add_tdiv a b
  have h2 := Int.tmod_add_tdiv (-a) b
  rw [Int.neg_tdiv, mul_neg] at h2
  omega

theorem tmod_le_self_of_nonneg {a : Int} (b : Int) (h : 0 ≤ a) : a.tmod b ≤ a := by
  rcases lt_trichotomy b 0 with hb | hb | hb
  · have h0 : a.tmod b = a.tmod (-b) := (Int.tmod_neg a b).symm
    rw [h0, Int.tmod_eq_emod h (by omega)]
    have h1 := Int.emod_add_ediv a (-b)
    have h2 : 0 ≤ a / (-b) := Int.ediv_nonneg h (by omega)
    nlinarith
  · subst hb; simp [Int.tmod_zero]
  · rw [Int.tmod_eq_emod h (by omega)]
    have h1 := Int.emod_add_ediv a b
    have h2 : 0 ≤ a / b := Int.ediv_nonneg h (by omega)
    nlinarith

theorem tmod_sign_range (a b : Int) :
    (0 ≤ a → 0 ≤ a.tmod b ∧ a.tmod b ≤ a) ∧ (a ≤ 0 → a ≤ a.tmod b ∧ a.tmod b ≤ 0) := by
  constructor
  · intro ha
    exact ⟨Int.tmod_nonneg b ha, tmod_le_self_of_nonneg b ha⟩
  · intro ha
    have h1 : a.tmod b = -((-a).tmod b) := by
      rw [neg_tmod_left]; omega
    have h2 : 0 ≤ (-a).tmod b := Int.tmod_nonneg b (by omega)
    have h3 : (-a).tmod b ≤ -a := tmod_le_self_of_nonneg b (by omega)
    omega

theorem tmod_range {t : NumTag} {a : Int} (b : Int) (ha : inRange t a) :
    inRange t (a.tmod b) := by
  have h1 := tmod_sign_range a b
  have h2 := intMin_nonpos t
  have h3 := intMax_nonneg t
  unfold inRange at ha ⊢
  rcases le_or_lt 0 a with h | h
  · have := h1.1 h; omega
  · have := h1.2 (by omega); omega

theorem natAbs_tdiv_le (a b : Int) : (a.tdiv b).natAbs ≤ a.natAbs := by
  rw [Int.natAbs_tdiv]
  exact Nat.div_le_self _ _

theorem tdiv_range {t : NumTag} {a b : Int} (ha : inRange t a) (hb0 : b ≠ 0)
    (hexc : ¬(a = intMin t ∧ b = -1)) (hbu : t.sgn = false → 0 < b) :
    inRange t (a.tdiv b) := by
  have hw := t.width_pos
  rcases eq_or_ne b 1 with h1 | h1
  · subst h1; rw [Int.tdiv_one]; exact ha
  rcases eq_or_ne b (-1) with hm1 | hm1
  · subst hm1
    have hexc' : a ≠ intMin t := fun hh => hexc ⟨hh, rfl⟩
    have hq : a.tdiv (-1) = -a := by
      have h := Int.tdiv_neg a 1
      rw [Int.tdiv_one] at h
      exact h
    rw [hq]
    cases ht : t.sgn with
    | false => exact absurd (hbu ht) (by omega)
    | true =>
      have hpos : (0 : Int) < 2 ^ (t.width - 1) := by positivity
      unfold inRange intMin intMax at ha ⊢
      unfold intMin at hexc'
      simp only [ht, if_true] at ha hexc' ⊢
      omega
  · have hb2 : 2 ≤ b.natAbs := by omega
    have habs2 : (a.tdiv b).natAbs ≤ a.natAbs / 2 := by
      rw [Int.natAbs_tdiv]
      exact Nat.div_le_div_left hb2 (by omega)
    unfold inRange intMin intMax at ha ⊢
    cases ht : t.sgn with
    | false =>
      simp only [ht, Bool.false_eq_true, if_false] at ha ⊢
      have hbp := hbu ht
      have hq : 0 ≤ a.tdiv b := Int.tdiv_nonneg (by omega) (by omega)
      omega
    | true =>
      simp only [ht, if_true] at ha ⊢
      have hM : (0 : Int) < 2 ^ (t.width - 1) := by positivity
      omega

/-! Kernel-loop lemmas. -/

theorem applyLoopGo_ok_of (f : Nat → Except ArithError Int) (g : Nat → Int) :
    ∀ (k i : Nat) (c : List Int), (∀ j, i ≤ j → j < i + k → f j = .ok (g j)) →
    applyLoopGo f k i c = .ok (writeLoopGo g k i c)
  | 0, _, _, _ => rfl
  | k + 1, i, c, h => by
    have hi : f i = .ok (g i) := h i le_rfl (by omega)
    unfold applyLoopGo writeLoopGo
    rw [hi]
    exact applyLoopGo_ok_of f g k (i + 1) (c.set i (g i))
      (fun j h1 h2 => h j (by omega) (by omega))

theorem applyLoop_eq_writeLoop {f : Nat → Except ArithError Int} {g : Nat → Int}
    {n : Nat} {c : List Int} (h : ∀ j, j < n → f j = .ok (g j)) :
    applyLoop f n c = .ok (writeLoop g n c) :=
  applyLoopGo_ok_of f g n 0 c (fun j _ h2 => h j (by omega))

theorem writeLoopGo_congr (g g' : Nat → Int) :
    ∀ (k i : Nat) (c : List Int), (∀ j, i ≤ j → j < i + k → g j = g' j) →
    writeLoopGo g k i c = writeLoopGo g' k i c
  | 0, _, _, _ => rfl
  | k + 1, i, c, h => by
    unfold writeLoopGo
    rw [h i le_rfl (by omega)]
    exact writeLoopGo_congr g g' k (i + 1) _ (fun j h1 h2 => h j (by omega) (by omega))

theorem writeLoop_congr {g g' : Nat → Int} {n : Nat} {c : List Int}
    (h : ∀ j, j < n → g j = g' j) : writeLoop g n c = writeLoop g' n c :=
  writeLoopGo_congr g g' n 0 c (fun j _ h2 => h j (by omega))

theorem writeLoopGo_length (g : Nat → Int) :
    ∀ (k i : Nat) (c : List Int), (writeLoopGo g k i c).length = c.length
  | 0, _, _ => rfl
  | k + 1, i, c => by
    unfold writeLoopGo
    rw [writeLoopGo_length g k (i + 1) (c.set i (g i)), List.length_set]

theorem applyLoopGo_ok_length {f : Nat → Except ArithError Int} :
    ∀ {k i : Nat} {c l : List Int}, applyLoopGo f k i c = .ok l → l.length = c.length := by
  intro k
  induction k with
  | zero =>
    intro i c l h
    unfold applyLoopGo at h
    cases h
    rfl
  | succ k ih =>
    intro i c l h
    unfold applyLoopGo at h
    cases hf : f i with
    | error e => rw [hf] at h; cases h
    | ok v =>
      rw [hf] at h
      have := ih h
      rw [this, List.length_set]

theorem writeLoopGo_getElem? (g : Nat → Int) :
    ∀ (k i : Nat) (c : List Int) (j : Nat),
    getElem? (writeLoopGo g k i c) j =
      if i ≤ j ∧ j < i + k ∧ j < c.length then some (g j) else getElem? c j
  | 0, i, c, j => by
    simp only [writeLoopGo]
    have : ¬(i ≤ j ∧ j < i + 0 ∧ j < c.length) := by omega
    rw [if_neg this]
  | k + 1, i, c, j => by
    unfold writeLoopGo
    rw [writeLoopGo_getElem? g k (i + 1) (c.set i (g i)) j, List.length_set]
    rcases Nat.lt_or_ge j c.length with hj | hj
    · by_cases h1 : i + 1 ≤ j ∧ j < i + 1 + k
      · rw [if_pos ⟨h1.1, h1.2, hj⟩, if_pos ⟨by omega, by omega, hj⟩]
      · rw [if_neg (by omega), List.getElem?_set]
        by_cases h2 : i = j
        · subst h2
          rw [if_pos rfl, if_pos hj, if_pos ⟨le_rfl, by omega, hj⟩]
        · rw [if_neg h2, if_neg (by omega)]
    · rw [if_neg (by omega), if_neg (by omega), List.getElem?_set]
      by_cases h2 : i = j
      · rw [if_pos h2, if_neg (by omega), List.getElem?_eq_none (by omega)]
      · rw [if_neg h2]

theorem writeLoop_const_replicate (r x : Int) (n : Nat) :
    writeLoop (fun _ => r) n (List.replicate n x) = List.replicate n r := by
  apply List.ext_getElem?
  intro j
  unfold writeLoop
  rw [writeLoopGo_getElem?, List.length_replicate, List.getElem?_replicate,
    List.getElem?_replicate]
  by_cases h : j < n
  · rw [if_pos ⟨by omega, by omega, h⟩, if_pos h]
  · rw [if_neg (by omega), if_neg h, if_neg h]

/-! Claim theorems. -/

/-- C1, counterexample: the fast-path parity claim fails at the non-zero
constant `b = -1` for the specialized pair `(Int32, Int32)`.  On `a = [5]`
with the dispatcher-provided output buffer (`[0]`), the fast-path divide
kernel returns `[0]` (it negates the output buffer), while the generic scalar
kernel returns `[-5]`; the two results are not element-equal. -/
theorem C1_fastpath_parity_counterexample :
    DivideIntegralByConstantImpl_vector_constant .i32 .i32 [5] (-1) [0] = .ok [0] ∧
    vector_constant (DivideIntegralImpl_apply .i32 .i32 (resultOfIntegerDivision .i32 .i32))
      [5] (-1) [0] = .ok [-5] ∧
    (Except.ok [0] : Except ArithError (List Int)) ≠ .ok [-5] := by
  refine ⟨by decide, by decide, by decide⟩

/-- C2, code bug: at `b = -1` the fast-path divide kernel executes
`c[i] = -c[i]` (line 796), negating the uninitialized output buffer instead
of the input, and it performs no `MIN / -1` overflow check at all.  With the
output buffer holding zeros, `intDiv([7], -1)` yields `[0]` instead of `[-7]`,
and `intDiv([-2^31], -1)` returns normally instead of raising
`DivisionOverflow` (the generic kernel raises).  The modulo fast path's
all-zero branch (line 843) does behave as claimed. -/
theorem C2_fastpath_negate_bug :
    DivideIntegralByConstantImpl_vector_constant .i32 .i32 [7] (-1) [0] = .ok [0] ∧
    DivideIntegralByConstantImpl_vector_constant .i32 .i32 [-2147483648] (-1) [0] = .ok [0] ∧
    vector_constant (DivideIntegralImpl_apply .i32 .i32 (resultOfIntegerDivision .i32 .i32))
      [-2147483648] (-1) [0] = .error .divisionOverflow ∧
    ModuloByConstantImpl_vector_constant .i32 .i32 [7] (-1) [9] = .ok [0] := by
  refine ⟨by decide, by decide, by decide, by decide⟩

/-- C3, counterexample: the scalar `modulo` projects both operands to
`ToInteger<A>` before the fault check, so for `A = Int32`, `B = UInt32`,
`a = -2^31`, `b = 4294967295` the code raises `DivisionOverflow` although `B`
is unsigned and `b` is neither `0` nor `-1` — the claim requires a normal
return here. -/
theorem C3_fault_condition_counterexample :
    ModuloImpl_apply .i32 (resultOfModulo .i32 .u32) (-2147483648) 4294967295 =
      .error .divisionOverflow ∧
    NumTag.u32.sgn = false ∧ (4294967295 : Int) ≠ -1 ∧ (4294967295 : Int) ≠ 0 := by
  refine ⟨by decide, by decide, by decide, by decide⟩

/-- C4, counterexample: the pair `(UInt32, UInt64)` is among the fast-path
specializations for both `intDiv` and `modulo` (lines 875, 896) although the
right width (64) exceeds the left width (32), contradicting the claim's
"right width ≤ left width" characterization. -/
theorem C4_specialization_set_counterexample :
    (NumTag.u32, NumTag.u64) ∈ divideIntegralSpecializations ∧
    (NumTag.u32, NumTag.u64) ∈ moduloSpecializations ∧
    ¬ NumTag.u64.width ≤ NumTag.u32.width := by
  refine ⟨by decide, by decide, by decide⟩

/-- C4, amended: the fast-path override is registered exactly for the pairs
whose left type is a 32- or 64-bit integer and whose right type is an integer
of the same signedness of any width — including right widths greater than the
left width; every other pair keeps the generic kernel. -/
theorem C4_specialization_set_amended :
    ∀ ta tb : NumTag,
      (((ta, tb) ∈ divideIntegralSpecializations) ↔
        ((ta.width = 32 ∨ ta.width = 64) ∧ ta.isInt ∧ tb.isInt ∧ ta.sgn = tb.sgn)) ∧
      (((ta, tb) ∈ moduloSpecializations) ↔
        ((ta.width = 32 ∨ ta.width = 64) ∧ ta.isInt ∧ tb.isInt ∧ ta.sgn = tb.sgn)) := by
  decide

/-- C5, counterexample: with a left `UInt8` column and a right column whose
declared type is `Date` (storage `u16`, matching the declared type),
`getReturnType` for `multiply` throws — the date overlay marks the pair
invalid — while `execute` succeeds: the right-hand walk falls through to the
numeric `UInt16` candidate, which matches the date column's storage, and
multiplies the date as a plain `u16`. -/
theorem C5_agreement_counterexample :
    getReturnType .multiply [.uint8, .date] = none ∧
    execute .multiply
      [⟨.uint8, .vec .u8 [3], "a"⟩, ⟨.date, .vec .u16 [2], "d"⟩, ⟨.uint8, .vec .u8 [], "r"⟩]
      0 1 2 =
      .ok [⟨.uint8, .vec .u8 [3], "a"⟩, ⟨.date, .vec .u16 [2], "d"⟩,
           ⟨.uint8, .vec .u32 [6], "r"⟩] ∧
    (Col.vec .u16 [2]).tag = fieldType .date := by
  refine ⟨by decide, by decide, by decide⟩

/-- C7, counterexample: the shape-closure claim quantifies over every operand
pair, but on a faulting pair no constant column is produced at all:
`constant_constant` for `modulo` with `b = 0` raises `DivisionByZero`
(for any block length), while `vector_vector` over the two constant-filled
vectors of length `0` returns an empty vector. -/
theorem C7_shape_closure_counterexample :
    constant_constant (ModuloImpl_apply .i32 (resultOfModulo .i32 .i32)) 1 0 =
      .error .divisionByZero ∧
    vector_vector (ModuloImpl_apply .i32 (resultOfModulo .i32 .i32)) [] [] [] = .ok [] := by
  refine ⟨by decide, by decide⟩

/-- A rational with absolute value below one has numerator magnitude below its
denominator. -/
theorem rat_abs_lt_one_num_lt_den (q : ℚ) (h : |q| < 1) : q.num.natAbs < q.den := by
  have hd : (0 : ℚ) < (q.den : ℚ) := by exact_mod_cast q.den_pos
  have hnum : (q.num : ℚ) = q * (q.den : ℚ) :=
    (div_eq_iff (ne_of_gt hd)).mp (Rat.num_div_den q)
  have habs : |(q.num : ℚ)| < (q.den : ℚ) := by
    rw [hnum, abs_mul, abs_of_pos hd]
    calc |q| * (q.den : ℚ) < 1 * (q.den : ℚ) := mul_lt_mul_of_pos_right h hd
    _ = (q.den : ℚ) := one_mul _
  have h2 : |q.num| < (q.den : ℤ) := by exact_mod_cast habs
  rw [Int.abs_eq_natAbs] at h2
  exact_mod_cast h2

/-- Truncation of a small rational is zero. -/
theorem ratTrunc_eq_zero {b : ℚ} (h : |b| < 1) : ratTrunc b = 0 := by
  have h1 := rat_abs_lt_one_num_lt_den b h
  unfold ratTrunc
  rw [← Int.natAbs_eq_zero, Int.natAbs_tdiv]
  simp only [Int.natAbs_ofNat]
  exact Nat.div_eq_of_lt h1

/-- C9: when the left operand type of `modulo` is floating, the
divide-by-zero check runs on the `ToInteger` projection of the right operand,
so every right operand with absolute value below one — `0.5` included —
raises `DivisionByZero` even when it is non-zero. -/
theorem C9_float_modulo_zero_check (a b : ℚ) (hb : |b| < 1) :
    ModuloImpl_apply_floatLeft a b = .error .divisionByZero := by
  unfold ModuloImpl_apply_floatLeft
  rw [ratTrunc_eq_zero hb]
  rfl

/-- C9, witness: `7.25 % 0.5` raises `DivisionByZero` although `0.5 ≠ 0`. -/
theorem C9_float_modulo_zero_check_witness :
    ModuloImpl_apply_floatLeft (29/4) (1/2) = .error .divisionByZero ∧ (1/2 : ℚ) ≠ 0 :=
  ⟨C9_float_modulo_zero_check (29/4) (1/2) (by rw [abs_lt]; constructor <;> norm_num),
    by norm_num⟩

/-- C6: whenever the scalar `modulo` returns normally, the value is the
truncated remainder of the integer projections of the two operands, both
projections being to the type derived from the left operand `A`, and the
result is representable in that same `A`-derived type. -/
theorem C6_modulo_projection (ta tb : NumTag) (a b r : Int)
    (hok : ModuloImpl_apply ta (resultOfModulo ta tb) a b = .ok r) :
    r = (wrap (toIntegerTag ta) a).tmod (wrap (toIntegerTag ta) b) ∧
    inRange (toIntegerTag ta) r := by
  have hr : inRange (toIntegerTag ta)
      ((wrap (toIntegerTag ta) a).tmod (wrap (toIntegerTag ta) b)) :=
    tmod_range _ (wrap_range _ _)
  unfold ModuloImpl_apply resultOfModulo at hok
  cases hc : throwIfDivisionLeadsToFPE (toIntegerTag ta) (toIntegerTag ta)
      (wrap (toIntegerTag ta) a) (wrap (toIntegerTag ta) b) with
  | some e => rw [hc] at hok; cases hok
  | none =>
    rw [hc] at hok
    have hval := hok
    cases hval
    exact ⟨wrap_eq_of_inRange hr, (wrap_eq_of_inRange hr).symm ▸ hr⟩

/-- C6, witness: `Int64 (-7) % Int32 3` returns `-1`, the truncated remainder
of the projections. -/
theorem C6_modulo_projection_witness :
    (-1 : Int) = (wrap (toIntegerTag .i64) (-7)).tmod (wrap (toIntegerTag .i64) 3) ∧
    inRange (toIntegerTag .i64) (-1) :=
  C6_modulo_projection .i64 .i32 (-7) 3 (-1) (by decide)

/-- C3, amended: for integer operand types, scalar `intDiv` raises exactly as
claimed — `DivisionByZero` iff `b = 0`, `DivisionOverflow` iff both types are
signed, `a = min(A)` and `b = -1` — and returns a value otherwise; scalar
`modulo` evaluates both fault conditions on the `A`-derived integer
projections of the operands: `DivisionByZero` iff the projection of `b` is
`0`, and `DivisionOverflow` iff `A` is signed and the projections of `a` and
`b` are `min(A)` and `-1` (regardless of `B`'s signedness), returning a value
otherwise. -/
theorem C3_fault_conditions_amended (ta tb : NumTag) (a b : Int)
    (_hta : ta.isInt = true) (_htb : tb.isInt = true) :
    (DivideIntegralImpl_apply ta tb (resultOfIntegerDivision ta tb) a b =
        .error .divisionByZero ↔ b = 0) ∧
    (DivideIntegralImpl_apply ta tb (resultOfIntegerDivision ta tb) a b =
        .error .divisionOverflow ↔
      (ta.sgn = true ∧ tb.sgn = true ∧ a = intMin ta ∧ b = -1)) ∧
    (b ≠ 0 → ¬(ta.sgn = true ∧ tb.sgn = true ∧ a = intMin ta ∧ b = -1) →
      ∃ v, DivideIntegralImpl_apply ta tb (resultOfIntegerDivision ta tb) a b = .ok v) ∧
    (ModuloImpl_apply ta (resultOfModulo ta tb) a b = .error .divisionByZero ↔
      wrap (toIntegerTag ta) b = 0) ∧
    (ModuloImpl_apply ta (resultOfModulo ta tb) a b = .error .divisionOverflow ↔
      ((toIntegerTag ta).sgn = true ∧ wrap (toIntegerTag ta) a = intMin (toIntegerTag ta) ∧
        wrap (toIntegerTag ta) b = -1)) ∧
    (wrap (toIntegerTag ta) b ≠ 0 →
      ¬((toIntegerTag ta).sgn = true ∧ wrap (toIntegerTag ta) a = intMin (toIntegerTag ta) ∧
        wrap (toIntegerTag ta) b = -1) →
      ∃ v, ModuloImpl_apply ta (resultOfModulo ta tb) a b = .ok v) := by
  unfold DivideIntegralImpl_apply ModuloImpl_apply throwIfDivisionLeadsToFPE
  split_ifs with h1 h2 h3 h4 <;>
    simp_all [Bool.and_eq_true, decide_eq_true_eq]

/-- C3, witness: `intDiv(Int32 7, Int32 0)` raises `DivisionByZero`, by the
amended characterization. -/
theorem C3_fault_conditions_amended_witness :
    DivideIntegralImpl_apply .i32 .i32 (resultOfIntegerDivision .i32 .i32) 7 0 =
      .error .divisionByZero :=
  ((C3_fault_conditions_amended .i32 .i32 7 0 (by decide) (by decide)).1).mpr rfl

/-- C7, amended: shape closure holds on every operand pair on which the
scalar operation returns normally: `const_const` yields the single value `r`
(broadcast to the left logical length by the dispatcher) and `vec_vec` over
two constant-filled vectors of any length `N` yields the vector with every
element equal to that same `r`.  On a faulting pair `const_const` raises, and
`vec_vec` raises exactly when `N > 0` (at `N = 0` it returns an empty
vector while `const_const` still raises). -/
theorem C7_shape_closure_amended (ap : Int → Int → Except ArithError Int)
    (a b r : Int) (n : Nat) (hok : ap a b = .ok r) :
    constant_constant ap a b = .ok r ∧
    vector_vector ap (List.replicate n a) (List.replicate n b) (List.replicate n 0) =
      .ok (List.replicate n r) := by
  refine ⟨hok, ?_⟩
  unfold vector_vector
  rw [List.length_replicate]
  have h : ∀ j, j < n →
      (fun i => ap ((List.replicate n a).getD i 0) ((List.replicate n b).getD i 0)) j =
        .ok ((fun _ => r) j) := by
    intro j hj
    simp only [List.getD_eq_getElem?_getD, List.getElem?_replicate, if_pos hj,
      Option.getD_some]
    exact hok
  rw [applyLoop_eq_writeLoop h, writeLoop_const_replicate]

/-- C7, witness: `modulo` at `(-7, 3)` returns `-1` on both shapes, at any
length (here 2). -/
theorem C7_shape_closure_amended_witness :
    constant_constant (ModuloImpl_apply .i64 (resultOfModulo .i64 .i32)) (-7) 3 = .ok (-1) ∧
    vector_vector (ModuloImpl_apply .i64 (resultOfModulo .i64 .i32))
      (List.replicate 2 (-7)) (List.replicate 2 3) (List.replicate 2 0) =
      .ok (List.replicate 2 (-1)) :=
  C7_shape_closure_amended _ (-7) 3 (-1) 2 (by decide)

/-- Every integer type of the model can hold the value one. -/
theorem one_le_intMax (t : NumTag) : 1 ≤ intMax t := by
  cases t <;> decide

/-- Branch selection: the fast-path divide kernel on a constant that is
neither `0` nor a signed `-1` (and whose narrowing to `A` is non-zero) runs
the divider loop. -/
theorem fastDiv_main_branch (ta tb : NumTag) (a c : List Int) (b : Int)
    (hb0 : b ≠ 0) (hne : ¬(tb.sgn = true ∧ b = -1)) (hd : wrap ta b ≠ 0) :
    DivideIntegralByConstantImpl_vector_constant ta tb a b c =
      .ok (writeLoop (fun i => libdivideDiv ta (wrap ta b) (a.getD i 0)) a.length c) := by
  unfold DivideIntegralByConstantImpl_vector_constant
  rw [if_neg hb0, if_neg (by simp only [Bool.and_eq_true, decide_eq_true_eq]; exact hne),
    if_neg hd]

/-- Branch selection: the fast-path modulo kernel on a constant that is
neither `0`, `1` nor a signed `-1` runs the divider loop. -/
theorem fastMod_main_branch (ta tb : NumTag) (a c : List Int) (b : Int)
    (hb0 : b ≠ 0) (hne : ¬(tb.sgn = true ∧ b = -1)) (hne1 : b ≠ 1)
    (hd : wrap ta b ≠ 0) :
    ModuloByConstantImpl_vector_constant ta tb a b c =
      .ok (writeLoop (fun i =>
        wrap (resultOfModulo ta tb) (wrap (commonType ta tb)
          (a.getD i 0 - wrap (commonType ta tb)
            (libdivideDiv ta (wrap ta b) (a.getD i 0) * b)))) a.length c) := by
  unfold ModuloByConstantImpl_vector_constant
  rw [if_neg hb0,
    if_neg (by
      simp only [Bool.or_eq_true, Bool.and_eq_true, decide_eq_true_eq]
      rintro (h | h)
      · exact hne h
      · exact hne1 h),
    if_neg hd]

/-- Branch selection: the fast-path modulo kernel at `b = 1` zeroes the
output. -/
theorem fastMod_one_branch (ta tb : NumTag) (a c : List Int) :
    ModuloByConstantImpl_vector_constant ta tb a 1 c =
      .ok (writeLoop (fun _ => 0) a.length c) := by
  unfold ModuloByConstantImpl_vector_constant
  rw [if_neg (by norm_num), if_pos (by simp)]

/-- The generic scalar `intDiv` on a non-faulting pair returns the converted
quotient. -/
theorem DivideIntegralImpl_apply_ok (ta tb rt : NumTag) (x b : Int)
    (hb0 : b ≠ 0) (hne : ¬(ta.sgn = true ∧ tb.sgn = true ∧ x = intMin ta ∧ b = -1)) :
    DivideIntegralImpl_apply ta tb rt x b =
      .ok (wrap rt (wrap (commonType rt tb)
        ((wrap (commonType rt tb) (wrap rt x)).tdiv (wrap (commonType rt tb) b)))) := by
  unfold DivideIntegralImpl_apply throwIfDivisionLeadsToFPE
  rw [if_neg hb0, if_neg (by
    simp only [Bool.and_eq_true, decide_eq_true_eq]
    rintro ⟨⟨⟨h1, h2⟩, h3⟩, h4⟩
    exact hne ⟨h1, h2, h3, h4⟩)]

/-- The generic scalar `modulo` on a non-faulting pair returns the converted
remainder of the projections. -/
theorem ModuloImpl_apply_ok (ta rt : NumTag) (x b : Int)
    (hb0 : wrap (toIntegerTag ta) b ≠ 0)
    (hne : ¬((toIntegerTag ta).sgn = true ∧
      wrap (toIntegerTag ta) x = intMin (toIntegerTag ta) ∧
      wrap (toIntegerTag ta) b = -1)) :
    ModuloImpl_apply ta rt x b =
      .ok (wrap rt ((wrap (toIntegerTag ta) x).tmod (wrap (toIntegerTag ta) b))) := by
  unfold ModuloImpl_apply throwIfDivisionLeadsToFPE
  rw [if_neg hb0, if_neg (by
    simp only [Bool.and_eq_true, decide_eq_true_eq]
    rintro ⟨⟨⟨h1, _⟩, h3⟩, h4⟩
    exact hne ⟨h1, h3, h4⟩)]

/-- Per-element agreement of the libdivide quotient with the generic scalar
`intDiv` expression, for a representable non-zero `b` that is not `-1`. -/
theorem fastDiv_elem {ta ct : NumTag} {x b : Int}
    (hx : inRange ta x) (hbr : inRange ta b) (hb0 : b ≠ 0) (hbne1 : b ≠ -1)
    (hbu : ta.sgn = false → 0 < b)
    (hmin : intMin ct ≤ intMin ta) (hmax : intMax ta ≤ intMax ct) :
    wrap ta (wrap ct ((wrap ct (wrap ta x)).tdiv (wrap ct b))) =
      wrap ta (x.tdiv b) := by
  have hq : inRange ta (x.tdiv b) := tdiv_range hx hb0 (fun h => hbne1 h.2) hbu
  rw [wrap_eq_of_inRange hx, wrap_eq_of_inRange (range_mono hmin hmax hx),
    wrap_eq_of_inRange (range_mono hmin hmax hbr),
    wrap_eq_of_inRange (range_mono hmin hmax hq)]

/-- Per-element agreement of the fast-path modulo expression
`a - (a / divider) * b` with the truncated remainder, for a representable
non-zero `b` that is not `-1`. -/
theorem fastMod_elem {ta ct : NumTag} {x b : Int}
    (hx : inRange ta x) (hb0 : b ≠ 0) (hbne1 : b ≠ -1)
    (hbu : ta.sgn = false → 0 < b)
    (hmin : intMin ct ≤ intMin ta) (hmax : intMax ta ≤ intMax ct) :
    wrap ta (wrap ct (x - wrap ct (wrap ta (x.tdiv b) * b))) = x.tmod b := by
  have hq : inRange ta (x.tdiv b) := tdiv_range hx hb0 (fun h => hbne1 h.2) hbu
  rw [wrap_eq_of_inRange hq]
  have hmul : x.tdiv b * b = x - x.tmod b := by
    have h := Int.tmod_add_tdiv x b
    rw [mul_comm]
    omega
  have hr := tmod_sign_range x b
  have h2 := intMin_nonpos ta
  have h3 := intMax_nonneg ta
  have hqb : inRange ta (x.tdiv b * b) := by
    rw [hmul]
    unfold inRange at hx ⊢
    rcases le_or_lt 0 x with h | h
    · have := hr.1 h; omega
    · have := hr.2 (le_of_lt h); omega
  rw [wrap_eq_of_inRange (range_mono hmin hmax hqb), hmul,
    show x - (x - x.tmod b) = x.tmod b by ring,
    wrap_eq_of_inRange (range_mono hmin hmax (tmod_range b hx)),
    wrap_eq_of_inRange (tmod_range b hx)]

/-- Fast-path/generic parity for one specialized pair, assuming the tag-level
facts that hold for all sixteen specializations: the division result type is
`A`, the modulo result type is `A`, and the common type of `A` and `B` extends
the range of `A`. -/
theorem C1_parity_core (ta tb : NumTag) (a c : List Int) (b : Int)
    (hrt : resultOfIntegerDivision ta tb = ta)
    (hrm : resultOfModulo ta tb = ta)
    (hmin : intMin (commonType ta tb) ≤ intMin ta)
    (hmax : intMax ta ≤ intMax (commonType ta tb))
    (ha : ∀ i, i < a.length → inRange ta (a.getD i 0))
    (hbr : inRange ta b) (hb0 : b ≠ 0) (hbne1 : b ≠ -1)
    (hbu : ta.sgn = false → 0 < b) :
    DivideIntegralByConstantImpl_vector_constant ta tb a b c =
      vector_constant (DivideIntegralImpl_apply ta tb (resultOfIntegerDivision ta tb)) a b c ∧
    ModuloByConstantImpl_vector_constant ta tb a b c =
      vector_constant (ModuloImpl_apply ta (resultOfModulo ta tb)) a b c := by
  have hit : toIntegerTag ta = ta := hrm
  have hd : wrap ta b = b := wrap_eq_of_inRange hbr
  have hdne : wrap ta b ≠ 0 := by rw [hd]; exact hb0
  have hne : ¬(tb.sgn = true ∧ b = -1) := fun h => hbne1 h.2
  constructor
  · rw [fastDiv_main_branch ta tb a c b hb0 hne hdne]
    unfold vector_constant
    have hgen := applyLoop_eq_writeLoop
      (f := fun i => DivideIntegralImpl_apply ta tb (resultOfIntegerDivision ta tb)
        (a.getD i 0) b)
      (g := fun i => wrap (resultOfIntegerDivision ta tb)
        (wrap (commonType (resultOfIntegerDivision ta tb) tb)
          ((wrap (commonType (resultOfIntegerDivision ta tb) tb)
              (wrap (resultOfIntegerDivision ta tb) (a.getD i 0))).tdiv
            (wrap (commonType (resultOfIntegerDivision ta tb) tb) b))))
      (n := a.length) (c := c)
      (fun j hj => DivideIntegralImpl_apply_ok ta tb (resultOfIntegerDivision ta tb)
        (a.getD j 0) b hb0 (fun h => hbne1 h.2.2.2))
    rw [hgen]
    have hcong : ∀ j, j < a.length →
        (fun i => libdivideDiv ta (wrap ta b) (a.getD i 0)) j =
        (fun i => wrap (resultOfIntegerDivision ta tb)
          (wrap (commonType (resultOfIntegerDivision ta tb) tb)
            ((wrap (commonType (resultOfIntegerDivision ta tb) tb)
                (wrap (resultOfIntegerDivision ta tb) (a.getD i 0))).tdiv
              (wrap (commonType (resultOfIntegerDivision ta tb) tb) b)))) j := by
      intro j hj
      simp only [hrt]
      unfold libdivideDiv
      rw [hd]
      exact (fastDiv_elem (ha j hj) hbr hb0 hbne1 hbu hmin hmax).symm
    rw [writeLoop_congr hcong]
  · rcases eq_or_ne b 1 with hb1 | hb1
    · subst hb1
      rw [fastMod_one_branch]
      unfold vector_constant
      have h1r : inRange ta 1 := ⟨by have := intMin_nonpos ta; omega,
        by have := one_le_intMax ta; omega⟩
      have hgen := applyLoop_eq_writeLoop
        (f := fun i => ModuloImpl_apply ta (resultOfModulo ta tb) (a.getD i 0) 1)
        (g := fun _ => 0) (n := a.length) (c := c)
        (fun j hj => by
          show ModuloImpl_apply ta (resultOfModulo ta tb) (a.getD j 0) 1 = Except.ok 0
          rw [ModuloImpl_apply_ok ta (resultOfModulo ta tb) (a.getD j 0) 1
            (by rw [hit, wrap_eq_of_inRange h1r]; norm_num)
            (by rw [hit, wrap_eq_of_inRange h1r]; rintro ⟨_, _, h⟩; norm_num at h)]
          rw [hit, wrap_eq_of_inRange h1r, Int.tmod_one, hrm]
          rw [wrap_eq_of_inRange ⟨intMin_nonpos ta, intMax_nonneg ta⟩])
      rw [hgen]
    · rw [fastMod_main_branch ta tb a c b hb0 hne hb1 hdne]
      unfold vector_constant
      have hgen := applyLoop_eq_writeLoop
        (f := fun i => ModuloImpl_apply ta (resultOfModulo ta tb) (a.getD i 0) b)
        (g := fun i => (a.getD i 0).tmod b) (n := a.length) (c := c)
        (fun j hj => by
          show ModuloImpl_apply ta (resultOfModulo ta tb) (a.getD j 0) b =
            Except.ok ((a.getD j 0).tmod b)
          rw [ModuloImpl_apply_ok ta (resultOfModulo ta tb) (a.getD j 0) b
            (by rw [hit, hd]; exact hb0)
            (by rw [hit, hd]; rintro ⟨_, _, h⟩; exact hbne1 h)]
          rw [hit, hd, wrap_eq_of_inRange (ha j hj), hrm,
            wrap_eq_of_inRange (tmod_range b (ha j hj))])
      rw [hgen]
      have hcong : ∀ j, j < a.length →
          (fun i => wrap (resultOfModulo ta tb) (wrap (commonType ta tb)
            (a.getD i 0 - wrap (commonType ta tb)
              (libdivideDiv ta (wrap ta b) (a.getD i 0) * b)))) j =
          (fun i => (a.getD i 0).tmod b) j := by
        intro j hj
        simp only [hrm]
        unfold libdivideDiv
        rw [hd]
        exact fastMod_elem (ha j hj) hb0 hbne1 hbu hmin hmax
      rw [writeLoop_congr hcong]

/-- C1, amended: for every specialized `(A, B)` pair and every constant `b`
that is non-zero, representable in `A`, and not a signed `-1`, the fast-path
`vector_constant` kernels for `intDiv` and `modulo` produce results equal to
the generic scalar kernel on every input vector of `A`-representable values.
The excluded cases genuinely diverge: at a signed `b = -1` the divide fast
path negates the uninitialized output buffer and skips the `MIN / -1` overflow
raise, and the modulo fast path returns zeros where the generic kernel raises
on `MIN`; for the `(32, 64)`-bit pairs a `b` not representable in `A` is
narrowed by the divider constructor and diverges from the generic kernel. -/
theorem C1_fastpath_parity_amended (ta tb : NumTag)
    (hpair : (ta, tb) ∈ divideIntegralSpecializations)
    (a c : List Int) (b : Int)
    (ha : ∀ i, i < a.length → inRange ta (a.getD i 0))
    (hbr : inRange ta b) (hb0 : b ≠ 0)
    (hbm1 : ¬(tb.sgn = true ∧ b = -1)) :
    DivideIntegralByConstantImpl_vector_constant ta tb a b c =
      vector_constant (DivideIntegralImpl_apply ta tb (resultOfIntegerDivision ta tb)) a b c ∧
    ModuloByConstantImpl_vector_constant ta tb a b c =
      vector_constant (ModuloImpl_apply ta (resultOfModulo ta tb)) a b c := by
  fin_cases hpair <;>
    refine C1_parity_core _ _ a c b (by decide) (by decide) (by decide) (by decide)
      ha hbr hb0 ?_ ?_ <;>
    first
      | exact fun h => hbm1 ⟨rfl, h⟩
      | exact fun h => absurd h (by decide)
      | (have h := hbr.1;
         simp only [intMin, NumTag.sgn, Bool.false_eq_true, if_false] at h; omega)

/-- C1, witness: parity at the pair `(Int32, Int32)` with `b = 3` over
`a = [5, -7]`. -/
theorem C1_fastpath_parity_amended_witness :
    DivideIntegralByConstantImpl_vector_constant .i32 .i32 [5, -7] 3 [0, 0] =
      vector_constant (DivideIntegralImpl_apply .i32 .i32 (resultOfIntegerDivision .i32 .i32))
        [5, -7] 3 [0, 0] ∧
    ModuloByConstantImpl_vector_constant .i32 .i32 [5, -7] 3 [0, 0] =
      vector_constant (ModuloImpl_apply .i32 (resultOfModulo .i32 .i32)) [5, -7] 3 [0, 0] :=
  C1_fastpath_parity_amended .i32 .i32 (by decide) [5, -7] [0, 0] 3 (by decide)
    (by decide) (by decide) (by decide)

/-! Walk lemmas for the dispatcher. -/

theorem firstSome_eq_some {α β : Type} {f : α → Option β} :
    ∀ {l : List α} {b : β}, firstSome f l = some b → ∃ x ∈ l, f x = some b := by
  intro l
  induction l with
  | nil => intro b h; cases h
  | cons x xs ih =>
    intro b h
    unfold firstSome at h
    cases hf : f x with
    | some v =>
      rw [hf] at h
      cases h
      exact ⟨x, List.mem_cons_self x xs, hf⟩
    | none =>
      rw [hf] at h
      obtain ⟨y, hy, hfy⟩ := ih h
      exact ⟨y, List.mem_cons_of_mem x hy, hfy⟩

theorem writeLoop_length (g : Nat → Int) (n : Nat) (c : List Int) :
    (writeLoop g n c).length = c.length :=
  writeLoopGo_length g n 0 c

theorem applyLoop_ok_length {f : Nat → Except ArithError Int} {n : Nat}
    {c l : List Int} (h : applyLoop f n c = .ok l) : l.length = c.length :=
  applyLoopGo_ok_length h

theorem DivideIntegralByConstantImpl_ok_length {ta tb : NumTag}
    {a c l : List Int} {b : Int}
    (h : DivideIntegralByConstantImpl_vector_constant ta tb a b c = .ok l) :
    l.length = c.length := by
  unfold DivideIntegralByConstantImpl_vector_constant at h
  split_ifs at h <;> cases h <;> exact writeLoop_length _ _ _

theorem ModuloByConstantImpl_ok_length {ta tb : NumTag}
    {a c l : List Int} {b : Int}
    (h : ModuloByConstantImpl_vector_constant ta tb a b c = .ok l) :
    l.length = c.length := by
  unfold ModuloByConstantImpl_vector_constant at h
  split_ifs at h <;> cases h <;> exact writeLoop_length _ _ _

theorem BinaryOperationImpl_vector_constant_ok_length {op : BinOp}
    {t0 t1 rt : NumTag} {a c l : List Int} {b : Int}
    (h : BinaryOperationImpl_vector_constant op t0 t1 rt a b c = .ok l) :
    l.length = c.length := by
  unfold BinaryOperationImpl_vector_constant at h
  split_ifs at h
  · exact DivideIntegralByConstantImpl_ok_length h
  · exact ModuloByConstantImpl_ok_length h
  · exact applyLoop_ok_length h

theorem executeRightTypeImpl_ok_shape {op : BinOp} {t0 t1 rt : NumTag}
    {left : MatchedCol} {bl : Block} {arg1 result : Nat} {bl' : Block}
    (h : executeRightTypeImpl op t0 t1 rt left bl arg1 result = some (.ok bl')) :
    ∃ c : Col, c.tag = rt ∧ c.len = left.len ∧ bl' = setColumn bl result c := by
  cases left with
  | vecCol a =>
    cases hcol : (getByPosition bl arg1).col with
    | vec t dataR =>
      simp only [executeRightTypeImpl, hcol] at h
      by_cases ht : t = t1
      · rw [if_pos ht] at h
        cases hk : vector_vector (binOpApply op t0 t1 rt) a dataR
            (List.replicate a.length 0) with
        | ok l2 =>
          rw [hk] at h
          injection h with h1
          injection h1 with h2
          refine ⟨.vec rt l2, rfl, ?_, h2.symm⟩
          show l2.length = a.length
          have := applyLoop_ok_length hk
          rwa [List.length_replicate] at this
        | error e => rw [hk] at h; injection h with h1; simp at h1
      · rw [if_neg ht] at h; cases h
    | const t n v =>
      simp only [executeRightTypeImpl, hcol] at h
      by_cases ht : t = t1
      · rw [if_pos ht] at h
        cases hk : BinaryOperationImpl_vector_constant op t0 t1 rt a v
            (List.replicate a.length 0) with
        | ok l2 =>
          rw [hk] at h
          injection h with h1
          injection h1 with h2
          refine ⟨.vec rt l2, rfl, ?_, h2.symm⟩
          show l2.length = a.length
          have := BinaryOperationImpl_vector_constant_ok_length hk
          rwa [List.length_replicate] at this
        | error e => rw [hk] at h; injection h with h1; simp at h1
      · rw [if_neg ht] at h; cases h
  | constCol n v =>
    cases hcol : (getByPosition bl arg1).col with
    | vec t dataR =>
      simp only [executeRightTypeImpl, hcol] at h
      by_cases ht : t = t1
      · rw [if_pos ht] at h
        cases hk : constant_vector (binOpApply op t0 t1 rt) v dataR
            (List.replicate n 0) with
        | ok l2 =>
          rw [hk] at h
          injection h with h1
          injection h1 with h2
          refine ⟨.vec rt l2, rfl, ?_, h2.symm⟩
          show l2.length = n
          have := applyLoop_ok_length hk
          rwa [List.length_replicate] at this
        | error e => rw [hk] at h; injection h with h1; simp at h1
      · rw [if_neg ht] at h; cases h
    | const t m w =>
      simp only [executeRightTypeImpl, hcol] at h
      by_cases ht : t = t1
      · rw [if_pos ht] at h
        cases hk : constant_constant (binOpApply op t0 t1 rt) v w with
        | ok r =>
          rw [hk] at h
          injection h with h1
          injection h1 with h2
          exact ⟨.const rt n r, rfl, rfl, h2.symm⟩
        | error e => rw [hk] at h; injection h with h1; simp at h1
      · rw [if_neg ht] at h; cases h

theorem executeRightType_ok_shape {op : BinOp} {l r : TypeTag}
    {left : MatchedCol} {bl : Block} {arg1 result : Nat} {bl' : Block}
    (h : executeRightType op l r left bl arg1 result = some (.ok bl')) :
    ∃ c : Col, c.len = left.len ∧ bl' = setColumn bl result c := by
  unfold executeRightType at h
  by_cases hdate : (isDateOrDateTime l || isDateOrDateTime r) = true
  · rw [if_pos hdate] at h
    by_cases hty : (getByPosition bl arg1).type = r
    · rw [if_pos hty] at h
      cases hdt : DateBinaryOperationTraits op l r with
      | none => rw [hdt] at h; cases h
      | some res =>
        rw [hdt] at h
        obtain ⟨c, _, hlen, heq⟩ := executeRightTypeImpl_ok_shape h
        exact ⟨c, hlen, heq⟩
    · rw [if_neg hty] at h; cases h
  · rw [if_neg hdate] at h
    cases hrt : opResultTag op (fieldType l) (fieldType r) with
    | none => rw [hrt] at h; cases h
    | some rt =>
      rw [hrt] at h
      obtain ⟨c, _, hlen, heq⟩ := executeRightTypeImpl_ok_shape h
      exact ⟨c, hlen, heq⟩

theorem executeRightChain_ok_shape {op : BinOp} {l : TypeTag}
    {left : MatchedCol} {bl : Block} {arg1 result : Nat} {bl' : Block}
    (h : executeRightChain op l left bl arg1 result = .ok bl') :
    ∃ c : Col, c.len = left.len ∧ bl' = setColumn bl result c := by
  unfold executeRightChain at h
  cases hfs : firstSome (fun r => executeRightType op l r left bl arg1 result)
      candidateTypes with
  | none => rw [hfs] at h; cases h
  | some res =>
    rw [hfs] at h
    subst h
    obtain ⟨r, _, hr⟩ := firstSome_eq_some hfs
    exact executeRightType_ok_shape hr

theorem executeLeftTypeImpl_vec_ok_shape {op : BinOp} {l : TypeTag}
    {bl : Block} {arg0 arg1 result : Nat} {bl' : Block}
    (h : executeLeftTypeImpl_vec op l bl arg0 arg1 result = some (.ok bl')) :
    ∃ c : Col, c.len = (getByPosition bl arg0).col.len ∧ bl' = setColumn bl result c := by
  cases hcol : (getByPosition bl arg0).col with
  | vec t d =>
    simp only [executeLeftTypeImpl_vec, hcol] at h
    by_cases ht : t = fieldType l
    · rw [if_pos ht] at h
      injection h with h1
      obtain ⟨c, hlen, heq⟩ := executeRightChain_ok_shape h1
      exact ⟨c, hlen, heq⟩
    · rw [if_neg ht] at h; cases h
  | const t n v =>
    simp only [executeLeftTypeImpl_vec, hcol] at h
    exact Option.noConfusion h

theorem executeLeftTypeImpl_const_ok_shape {op : BinOp} {l : TypeTag}
    {bl : Block} {arg0 arg1 result : Nat} {bl' : Block}
    (h : executeLeftTypeImpl_const op l bl arg0 arg1 result = some (.ok bl')) :
    ∃ c : Col, c.len = (getByPosition bl arg0).col.len ∧ bl' = setColumn bl result c := by
  cases hcol : (getByPosition bl arg0).col with
  | vec t d =>
    simp only [executeLeftTypeImpl_const, hcol] at h
    exact Option.noConfusion h
  | const t n v =>
    simp only [executeLeftTypeImpl_const, hcol] at h
    by_cases ht : t = fieldType l
    · rw [if_pos ht] at h
      injection h with h1
      obtain ⟨c, hlen, heq⟩ := executeRightChain_ok_shape h1
      exact ⟨c, hlen, heq⟩
    · rw [if_neg ht] at h; cases h

theorem executeLeftTypeDispatch_ok_shape {op : BinOp} {l : TypeTag}
    {bl : Block} {arg0 arg1 result : Nat} {bl' : Block}
    (h : executeLeftTypeDispatch op l bl arg0 arg1 result = some (.ok bl')) :
    ∃ c : Col, c.len = (getByPosition bl arg0).col.len ∧ bl' = setColumn bl result c := by
  unfold executeLeftTypeDispatch at h
  cases hv : executeLeftTypeImpl_vec op l bl arg0 arg1 result with
  | some res =>
    rw [hv] at h
    injection h with h1
    subst h1
    exact executeLeftTypeImpl_vec_ok_shape hv
  | none =>
    rw [hv] at h
    exact executeLeftTypeImpl_const_ok_shape h

theorem executeLeftType_ok_shape {op : BinOp} {l : TypeTag}
    {bl : Block} {arg0 arg1 result : Nat} {bl' : Block}
    (h : executeLeftType op l bl arg0 arg1 result = some (.ok bl')) :
    ∃ c : Col, c.len = (getByPosition bl arg0).col.len ∧ bl' = setColumn bl result c := by
  unfold executeLeftType at h
  by_cases hd : isDateOrDateTime l = true
  · rw [if_pos hd] at h
    by_cases hty : (getByPosition bl arg0).type = l
    · rw [if_pos hty] at h
      exact executeLeftTypeDispatch_ok_shape h
    · rw [if_neg hty] at h; cases h
  · rw [if_neg hd] at h
    exact executeLeftTypeDispatch_ok_shape h

theorem execute_ok_shape {op : BinOp} {bl : Block} {arg0 arg1 result : Nat}
    {bl' : Block} (h : execute op bl arg0 arg1 result = .ok bl') :
    ∃ c : Col, c.len = (getByPosition bl arg0).col.len ∧ bl' = setColumn bl result c := by
  unfold execute at h
  cases hfs : firstSome (fun l => executeLeftType op l bl arg0 arg1 result)
      candidateTypes with
  | none => rw [hfs] at h; cases h
  | some res =>
    rw [hfs] at h
    subst h
    obtain ⟨l, _, hl⟩ := firstSome_eq_some hfs
    exact executeLeftType_ok_shape hl

theorem getByPosition_setColumn_self {bl : Block} {res : Nat} {c : Col}
    (h : res < bl.length) :
    getByPosition (setColumn bl res c) res = { getByPosition bl res with col := c } := by
  unfold getByPosition setColumn
  rw [List.getD_eq_getElem?_getD, List.getElem?_set, if_pos rfl, if_pos h,
    Option.getD_some]
  rfl

theorem getByPosition_setColumn_ne {bl : Block} {res p : Nat} {c : Col}
    (h : p ≠ res) :
    getByPosition (setColumn bl res c) p = getByPosition bl p := by
  unfold getByPosition setColumn
  rw [List.getD_eq_getElem?_getD, List.getElem?_set, if_neg (fun hh => h hh.symm),
    ← List.getD_eq_getElem?_getD]

theorem getByPosition_setColumn_type_name {bl : Block} {res : Nat} {c : Col} :
    (getByPosition (setColumn bl res c) res).type = (getByPosition bl res).type ∧
    (getByPosition (setColumn bl res c) res).name = (getByPosition bl res).name := by
  by_cases h : res < bl.length
  · rw [getByPosition_setColumn_self h]
    exact ⟨rfl, rfl⟩
  · unfold getByPosition setColumn
    rw [List.getD_eq_getElem?_getD, List.getElem?_set, if_pos rfl, if_neg h,
      Option.getD_none, List.getD_eq_getElem?_getD,
      List.getElem?_eq_none (Nat.le_of_not_lt h), Option.getD_none]
    exact ⟨rfl, rfl⟩

/-- C8: a normal return of `execute` replaces only the column at the result
position: the block after the call is the block before with one column set
(the kernel output), every position other than the result position holds the
same `(declared_type, column, name)` triple as before, and even the result
position's declared type and name are untouched.  The input columns, being
values of the model, are not mutated; heap freshness of the output column is
not expressible in this embedding and is represented by the result column
being constructed by the call itself. -/
theorem C8_frame_effect (op : BinOp) (bl : Block) (arg0 arg1 result : Nat)
    (bl' : Block) (h : execute op bl arg0 arg1 result = .ok bl') :
    (∃ c : Col, bl' = setColumn bl result c) ∧
    (∀ p, p ≠ result → getByPosition bl' p = getByPosition bl p) ∧
    (getByPosition bl' result).type = (getByPosition bl result).type ∧
    (getByPosition bl' result).name = (getByPosition bl result).name := by
  obtain ⟨c, _, heq⟩ := execute_ok_shape h
  subst heq
  exact ⟨⟨c, rfl⟩, fun p hp => getByPosition_setColumn_ne hp,
    getByPosition_setColumn_type_name.1, getByPosition_setColumn_type_name.2⟩

/-- C8, witness: adding a `u8` vector and a `u8` constant in a three-position
block only replaces the column at position 2. -/
theorem C8_frame_effect_witness :
    (∃ c : Col,
      ([⟨.uint8, .vec .u8 [1, 2, 3], "a"⟩, ⟨.uint8, .const .u8 3 250, "b"⟩,
        ⟨.uint8, .vec .u16 [251, 252, 253], "r"⟩] : Block) =
      setColumn [⟨.uint8, .vec .u8 [1, 2, 3], "a"⟩, ⟨.uint8, .const .u8 3 250, "b"⟩,
        ⟨.uint8, .vec .u8 [], "r"⟩] 2 c) ∧
    (∀ p, p ≠ 2 →
      getByPosition [⟨.uint8, .vec .u8 [1, 2, 3], "a"⟩, ⟨.uint8, .const .u8 3 250, "b"⟩,
        ⟨.uint8, .vec .u16 [251, 252, 253], "r"⟩] p =
      getByPosition [⟨.uint8, .vec .u8 [1, 2, 3], "a"⟩, ⟨.uint8, .const .u8 3 250, "b"⟩,
        ⟨.uint8, .vec .u8 [], "r"⟩] p) ∧
    (getByPosition [⟨.uint8, .vec .u8 [1, 2, 3], "a"⟩, ⟨.uint8, .const .u8 3 250, "b"⟩,
        ⟨.uint8, .vec .u16 [251, 252, 253], "r"⟩] 2).type =
      (getByPosition [⟨.uint8, .vec .u8 [1, 2, 3], "a"⟩, ⟨.uint8, .const .u8 3 250, "b"⟩,
        ⟨.uint8, .vec .u8 [], "r"⟩] 2).type ∧
    (getByPosition [⟨.uint8, .vec .u8 [1, 2, 3], "a"⟩, ⟨.uint8, .const .u8 3 250, "b"⟩,
        ⟨.uint8, .vec .u16 [251, 252, 253], "r"⟩] 2).name =
      (getByPosition [⟨.uint8, .vec .u8 [1, 2, 3], "a"⟩, ⟨.uint8, .const .u8 3 250, "b"⟩,
        ⟨.uint8, .vec .u8 [], "r"⟩] 2).name :=
  C8_frame_effect .plus
    [⟨.uint8, .vec .u8 [1, 2, 3], "a"⟩, ⟨.uint8, .const .u8 3 250, "b"⟩,
      ⟨.uint8, .vec .u8 [], "r"⟩] 0 1 2
    [⟨.uint8, .vec .u8 [1, 2, 3], "a"⟩, ⟨.uint8, .const .u8 3 250, "b"⟩,
      ⟨.uint8, .vec .u16 [251, 252, 253], "r"⟩] (by decide)

/-- C10: on every normal return of `execute`, the logical length of the
column written at the result position equals the logical length of the left
argument column, in all four shape combinations (the output buffer is sized
from the left operand), regardless of the right column's length. -/
theorem C10_output_length (op : BinOp) (bl : Block) (arg0 arg1 result : Nat)
    (bl' : Block) (hres : result < bl.length)
    (h : execute op bl arg0 arg1 result = .ok bl') :
    (getByPosition bl' result).col.len = (getByPosition bl arg0).col.len := by
  obtain ⟨c, hlen, heq⟩ := execute_ok_shape h
  subst heq
  rw [getByPosition_setColumn_self hres]
  exact hlen

/-- C10, witness: a constant left operand of logical length 3 against a
right vector of length 2 (a malformed block the dispatcher does not check)
still yields an output of the left length 3. -/
theorem C10_output_length_witness :
    (getByPosition [⟨.uint8, .const .u8 3 7, "a"⟩, ⟨.uint8, .vec .u8 [1, 2], "b"⟩,
        ⟨.uint8, .vec .u16 [8, 9, 0], "r"⟩] 2).col.len =
      (getByPosition [⟨.uint8, .const .u8 3 7, "a"⟩, ⟨.uint8, .vec .u8 [1, 2], "b"⟩,
        ⟨.uint8, .vec .u8 [], "r"⟩] 0).col.len :=
  C10_output_length .plus
    [⟨.uint8, .const .u8 3 7, "a"⟩, ⟨.uint8, .vec .u8 [1, 2], "b"⟩,
      ⟨.uint8, .vec .u8 [], "r"⟩] 0 1 2
    [⟨.uint8, .const .u8 3 7, "a"⟩, ⟨.uint8, .vec .u8 [1, 2], "b"⟩,
      ⟨.uint8, .vec .u16 [8, 9, 0], "r"⟩] (by decide) (by decide)

/-! Walk characterization for the dispatcher agreement claim. -/

theorem firstSome_none {α β : Type} {f : α → Option β} :
    ∀ {l : List α}, (∀ y ∈ l, f y = none) → firstSome f l = none := by
  intro l
  induction l with
  | nil => intro _; rfl
  | cons z zs ih =>
    intro h
    unfold firstSome
    rw [h z (List.mem_cons_self z zs)]
    exact ih (fun y hy => h y (List.mem_cons_of_mem z hy))

theorem firstSome_eq_of_unique {α β : Type} {f : α → Option β} {x : α} :
    ∀ {l : List α}, x ∈ l → (∀ y, y ≠ x → f y = none) → firstSome f l = f x := by
  intro l
  induction l with
  | nil => intro h; cases h
  | cons z zs ih =>
    intro hmem hothers
    unfold firstSome
    by_cases hz : z = x
    · subst hz
      cases hf : f z with
      | some b => rfl
      | none =>
        rw [firstSome_none (fun y _ => by
          by_cases hyz : y = z
          · subst hyz; exact hf
          · exact hothers y hyz)]
    · rw [hothers z hz]
      rcases List.mem_cons.mp hmem with h | h
      · exact absurd h.symm hz
      · exact ih h hothers

theorem mem_candidateTypes (t : TypeTag) : t ∈ candidateTypes := by
  cases t <;> decide

theorem fieldType_inj_nondate :
    ∀ x y : TypeTag, isDateOrDateTime x = false → isDateOrDateTime y = false →
    fieldType x = fieldType y → x = y := by
  decide

theorem fieldType_dataTypeFromField : ∀ n : NumTag, fieldType (dataTypeFromField n) = n := by
  decide

theorem getReturnType_char (op : BinOp) (tL tR : TypeTag) :
    getReturnType op [tL, tR] = BinaryOperationTraits op tL tR := by
  unfold getReturnType
  rw [if_pos (show ([tL, tR] : List TypeTag).length = 2 from rfl)]
  have hL : ([tL, tR].getD 0 .uint8) = tL := rfl
  have hR : ([tL, tR].getD 1 .uint8) = tR := rfl
  rw [hL, hR]
  rw [firstSome_eq_of_unique (mem_candidateTypes tL)
    (fun y hy => by unfold checkLeftType; rw [if_neg (fun h => hy h.symm)])]
  unfold checkLeftType
  rw [if_pos rfl]
  rw [firstSome_eq_of_unique (mem_candidateTypes tR)
    (fun y hy => by unfold checkRightType; rw [if_neg (fun h => hy h.symm)])]
  unfold checkRightType
  rw [if_pos rfl]
  cases BinaryOperationTraits op tL tR <;> rfl

theorem executeLeftType_none_date {op : BinOp} {bl : Block} {a0 a1 res : Nat}
    (l : TypeTag) (hd : isDateOrDateTime l = true)
    (hne : (getByPosition bl a0).type ≠ l) :
    executeLeftType op l bl a0 a1 res = none := by
  unfold executeLeftType
  rw [if_pos hd, if_neg hne]

theorem executeLeftType_none_numeric {op : BinOp} {bl : Block} {a0 a1 res : Nat}
    (l : TypeTag) (hnd : isDateOrDateTime l = false)
    (hne : (getByPosition bl a0).col.tag ≠ fieldType l) :
    executeLeftType op l bl a0 a1 res = none := by
  unfold executeLeftType
  rw [if_neg (by simp [hnd])]
  cases hcol : (getByPosition bl a0).col with
  | vec t d =>
    have ht : ¬(t = fieldType l) := by rw [hcol] at hne; exact hne
    simp [executeLeftTypeDispatch, executeLeftTypeImpl_vec, executeLeftTypeImpl_const,
      hcol, ht]
  | const t n v =>
    have ht : ¬(t = fieldType l) := by rw [hcol] at hne; exact hne
    simp [executeLeftTypeDispatch, executeLeftTypeImpl_vec, executeLeftTypeImpl_const,
      hcol, ht]

theorem executeLeftType_self {op : BinOp} {bl : Block} {a0 a1 res : Nat}
    {tT : TypeTag} (hT : (getByPosition bl a0).type = tT)
    (h0 : (getByPosition bl a0).col.tag = fieldType tT) :
    executeLeftType op tT bl a0 a1 res =
      some (executeRightChain op tT (matchedOf (getByPosition bl a0).col) bl a1 res) := by
  have hdisp : executeLeftTypeDispatch op tT bl a0 a1 res =
      some (executeRightChain op tT (matchedOf (getByPosition bl a0).col) bl a1 res) := by
    cases hcol : (getByPosition bl a0).col with
    | vec t d =>
      have ht : t = fieldType tT := by rw [hcol] at h0; exact h0
      simp [executeLeftTypeDispatch, executeLeftTypeImpl_vec, executeLeftTypeImpl_const,
        hcol, ht, matchedOf]
    | const t n v =>
      have ht : t = fieldType tT := by rw [hcol] at h0; exact h0
      simp [executeLeftTypeDispatch, executeLeftTypeImpl_vec, executeLeftTypeImpl_const,
        hcol, ht, matchedOf]
  unfold executeLeftType
  by_cases hd : isDateOrDateTime tT = true
  · rw [if_pos hd, if_pos hT]
    exact hdisp
  · rw [if_neg hd]
    exact hdisp

theorem execute_eq_chain {op : BinOp} {bl : Block} {a0 a1 res : Nat}
    {tT : TypeTag} (hT : (getByPosition bl a0).type = tT)
    (h0 : (getByPosition bl a0).col.tag = fieldType tT) :
    execute op bl a0 a1 res =
      executeRightChain op tT (matchedOf (getByPosition bl a0).col) bl a1 res := by
  unfold execute
  have hself := @executeLeftType_self op bl a0 a1 res tT hT h0
  by_cases hd : isDateOrDateTime tT = true
  · cases tT <;> simp only [isDateOrDateTime] at hd <;> try exact absurd hd (by decide)
    · show (match firstSome (fun l => executeLeftType op l bl a0 a1 res)
          candidateTypes with
        | some r => r
        | none => Except.error .illegalColumnFirstArg) = _
      simp only [candidateTypes, firstSome, hself]
    · have hn1 : executeLeftType op .date bl a0 a1 res = none :=
        executeLeftType_none_date .date (by decide) (by rw [hT]; decide)
      show (match firstSome (fun l => executeLeftType op l bl a0 a1 res)
          candidateTypes with
        | some r => r
        | none => Except.error .illegalColumnFirstArg) = _
      simp only [candidateTypes, firstSome, hn1, hself]
  · have hd' : isDateOrDateTime tT = false := by
      cases hdd : isDateOrDateTime tT
      · rfl
      · exact absurd hdd hd
    rw [firstSome_eq_of_unique (mem_candidateTypes tT) (fun y hy => by
      by_cases hdy : isDateOrDateTime y = true
      · refine executeLeftType_none_date y hdy ?_
        rw [hT]
        intro heq
        subst heq
        rw [hdy] at hd'
        cases hd'
      · have hdy' : isDateOrDateTime y = false := by
          cases hdd : isDateOrDateTime y
          · rfl
          · exact absurd hdd hdy
        refine executeLeftType_none_numeric y hdy' ?_
        rw [h0]
        intro heq
        exact hy (fieldType_inj_nondate tT y hd' hdy' heq).symm ), hself]

theorem executeRightTypeImpl_none {op : BinOp} {t0 t1 rt : NumTag}
    {left : MatchedCol} {bl : Block} {a1 res : Nat}
    (h : (getByPosition bl a1).col.tag ≠ t1) :
    executeRightTypeImpl op t0 t1 rt left bl a1 res = none := by
  cases left with
  | vecCol a =>
    cases hcol : (getByPosition bl a1).col with
    | vec t d =>
      have ht : ¬(t = t1) := by rw [hcol] at h; exact h
      simp [executeRightTypeImpl, hcol, ht]
    | const t n v =>
      have ht : ¬(t = t1) := by rw [hcol] at h; exact h
      simp [executeRightTypeImpl, hcol, ht]
  | constCol n v =>
    cases hcol : (getByPosition bl a1).col with
    | vec t d =>
      have ht : ¬(t = t1) := by rw [hcol] at h; exact h
      simp [executeRightTypeImpl, hcol, ht]
    | const t m w =>
      have ht : ¬(t = t1) := by rw [hcol] at h; exact h
      simp [executeRightTypeImpl, hcol, ht]

theorem executeRightTypeImpl_commit {op : BinOp} {t0 t1 rt : NumTag}
    {left : MatchedCol} {bl : Block} {a1 res : Nat}
    (h1 : (getByPosition bl a1).col.tag = t1) :
    ∃ out, executeRightTypeImpl op t0 t1 rt left bl a1 res = some out ∧
      structOkE out = true ∧
      ∀ bl', out = .ok bl' → ∃ c : Col, c.tag = rt ∧ bl' = setColumn bl res c := by
  cases left with
  | vecCol a =>
    cases hcol : (getByPosition bl a1).col with
    | vec t d =>
      have ht : t = t1 := by rw [hcol] at h1; exact h1
      simp only [executeRightTypeImpl, hcol, ht, if_pos rfl]
      cases hk : vector_vector (binOpApply op t0 t1 rt) a d (List.replicate a.length 0) with
      | ok l2 =>
        refine ⟨_, rfl, rfl, fun bl' hbl => ?_⟩
        injection hbl with hbl
        exact ⟨.vec rt l2, rfl, hbl.symm⟩
      | error e =>
        exact ⟨_, rfl, rfl, fun bl' hbl => by cases hbl⟩
    | const t n v =>
      have ht : t = t1 := by rw [hcol] at h1; exact h1
      simp only [executeRightTypeImpl, hcol, ht, if_pos rfl]
      cases hk : BinaryOperationImpl_vector_constant op t0 t1 rt a v
          (List.replicate a.length 0) with
      | ok l2 =>
        refine ⟨_, rfl, rfl, fun bl' hbl => ?_⟩
        injection hbl with hbl
        exact ⟨.vec rt l2, rfl, hbl.symm⟩
      | error e =>
        exact ⟨_, rfl, rfl, fun bl' hbl => by cases hbl⟩
  | constCol n v =>
    cases hcol : (getByPosition bl a1).col with
    | vec t d =>
      have ht : t = t1 := by rw [hcol] at h1; exact h1
      simp only [executeRightTypeImpl, hcol, ht, if_pos rfl]
      cases hk : constant_vector (binOpApply op t0 t1 rt) v d (List.replicate n 0) with
      | ok l2 =>
        refine ⟨_, rfl, rfl, fun bl' hbl => ?_⟩
        injection hbl with hbl
        exact ⟨.vec rt l2, rfl, hbl.symm⟩
      | error e =>
        exact ⟨_, rfl, rfl, fun bl' hbl => by cases hbl⟩
    | const t m w =>
      have ht : t = t1 := by rw [hcol] at h1; exact h1
      simp only [executeRightTypeImpl, hcol, ht, if_pos rfl]
      cases hk : constant_constant (binOpApply op t0 t1 rt) v w with
      | ok r =>
        refine ⟨_, rfl, rfl, fun bl' hbl => ?_⟩
        injection hbl with hbl
        exact ⟨.const rt n r, rfl, hbl.symm⟩
      | error e =>
        exact ⟨_, rfl, rfl, fun bl' hbl => by cases hbl⟩

theorem executeRightType_none_dateOverload {op : BinOp} {l r : TypeTag}
    {left : MatchedCol} {bl : Block} {a1 res : Nat}
    (hd : (isDateOrDateTime l || isDateOrDateTime r) = true)
    (hne : (getByPosition bl a1).type ≠ r) :
    executeRightType op l r left bl a1 res = none := by
  unfold executeRightType
  rw [if_pos hd, if_neg hne]

theorem executeRightType_none_numericOverload {op : BinOp} {l r : TypeTag}
    {left : MatchedCol} {bl : Block} {a1 res : Nat}
    (hd : ¬((isDateOrDateTime l || isDateOrDateTime r) = true))
    (hne : (getByPosition bl a1).col.tag ≠ fieldType r) :
    executeRightType op l r left bl a1 res = none := by
  unfold executeRightType
  rw [if_neg hd]
  cases hrt : opResultTag op (fieldType l) (fieldType r) with
  | none => rfl
  | some rt => exact executeRightTypeImpl_none hne

theorem chain_char_dateL {op : BinOp} {l : TypeTag} {left : MatchedCol}
    {bl : Block} {a1 res : Nat} {tR : TypeTag}
    (hL : isDateOrDateTime l = true)
    (hT1 : (getByPosition bl a1).type = tR)
    (h1 : (getByPosition bl a1).col.tag = fieldType tR) :
    (DateBinaryOperationTraits op l tR = none →
      executeRightChain op l left bl a1 res = .error .illegalColumnSecondArg) ∧
    (∀ res0, DateBinaryOperationTraits op l tR = some res0 →
      ∃ out, executeRightChain op l left bl a1 res = out ∧ structOkE out = true ∧
        ∀ bl', out = .ok bl' →
          ∃ c : Col, c.tag = fieldType res0 ∧ bl' = setColumn bl res c) := by
  have huniq : ∀ r, r ≠ tR → executeRightType op l r left bl a1 res = none := by
    intro r hr
    exact executeRightType_none_dateOverload (by simp [hL])
      (by rw [hT1]; exact fun hh => hr hh.symm)
  have hfs := firstSome_eq_of_unique
    (f := fun r => executeRightType op l r left bl a1 res)
    (mem_candidateTypes tR) huniq
  constructor
  · intro hdt
    unfold executeRightChain
    rw [hfs]
    simp only []
    unfold executeRightType
    rw [if_pos (by simp [hL]), if_pos hT1]
    simp only [hdt]
  · intro res0 hdt
    obtain ⟨out, hsome, hok, htag⟩ :=
      @executeRightTypeImpl_commit op (fieldType l) (fieldType tR) (fieldType res0)
        left bl a1 res h1
    refine ⟨out, ?_, hok, htag⟩
    unfold executeRightChain
    rw [hfs]
    simp only []
    unfold executeRightType
    rw [if_pos (by simp [hL]), if_pos hT1]
    simp only [hdt, hsome]

theorem chain_char_numL_numR {op : BinOp} {l : TypeTag} {left : MatchedCol}
    {bl : Block} {a1 res : Nat} {tR : TypeTag}
    (hL : isDateOrDateTime l = false) (hR : isDateOrDateTime tR = false)
    (hT1 : (getByPosition bl a1).type = tR)
    (h1 : (getByPosition bl a1).col.tag = fieldType tR) :
    (opResultTag op (fieldType l) (fieldType tR) = none →
      executeRightChain op l left bl a1 res = .error .illegalColumnSecondArg) ∧
    (∀ rt, opResultTag op (fieldType l) (fieldType tR) = some rt →
      ∃ out, executeRightChain op l left bl a1 res = out ∧ structOkE out = true ∧
        ∀ bl', out = .ok bl' →
          ∃ c : Col, c.tag = rt ∧ bl' = setColumn bl res c) := by
  have huniq : ∀ r, r ≠ tR → executeRightType op l r left bl a1 res = none := by
    intro r hr
    by_cases hdy : isDateOrDateTime r = true
    · refine executeRightType_none_dateOverload (by simp [hdy]) ?_
      rw [hT1]
      intro hh
      subst hh
      rw [hdy] at hR
      cases hR
    · have hdy' : isDateOrDateTime r = false := by
        cases hdd : isDateOrDateTime r
        · rfl
        · exact absurd hdd hdy
      refine executeRightType_none_numericOverload (by simp [hL, hdy']) ?_
      rw [h1]
      intro heq
      exact hr (fieldType_inj_nondate tR r hR hdy' heq).symm
  have hfs := firstSome_eq_of_unique
    (f := fun r => executeRightType op l r left bl a1 res)
    (mem_candidateTypes tR) huniq
  constructor
  · intro hrt
    unfold executeRightChain
    rw [hfs]
    simp only []
    unfold executeRightType
    rw [if_neg (by simp [hL, hR])]
    simp only [hrt]
  · intro rt hrt
    obtain ⟨out, hsome, hok, htag⟩ :=
      @executeRightTypeImpl_commit op (fieldType l) (fieldType tR) rt
        left bl a1 res h1
    refine ⟨out, ?_, hok, htag⟩
    unfold executeRightChain
    rw [hfs]
    simp only []
    unfold executeRightType
    rw [if_neg (by simp [hL, hR])]
    simp only [hrt, hsome]

theorem chain_char_numL_dateR {op : BinOp} {l : TypeTag} {left : MatchedCol}
    {bl : Block} {a1 res : Nat} {tR : TypeTag}
    (_hL : isDateOrDateTime l = false) (hR : isDateOrDateTime tR = true)
    (hT1 : (getByPosition bl a1).type = tR)
    (h1 : (getByPosition bl a1).col.tag = fieldType tR)
    (res0 : TypeTag) (hdt : DateBinaryOperationTraits op l tR = some res0) :
    ∃ out, executeRightChain op l left bl a1 res = out ∧ structOkE out = true ∧
      ∀ bl', out = .ok bl' →
        ∃ c : Col, c.tag = fieldType res0 ∧ bl' = setColumn bl res c := by
  obtain ⟨out, hsome, hok, htag⟩ :=
    @executeRightTypeImpl_commit op (fieldType l) (fieldType tR) (fieldType res0)
      left bl a1 res h1
  refine ⟨out, ?_, hok, htag⟩
  have hg : executeRightType op l tR left bl a1 res = some out := by
    unfold executeRightType
    rw [if_pos (by simp [hR]), if_pos hT1]
    simp only [hdt, hsome]
  cases tR with
  | date =>
    unfold executeRightChain
    simp only [candidateTypes, firstSome, hg]
  | dateTime =>
    have hn : executeRightType op l .date left bl a1 res = none :=
      executeRightType_none_dateOverload
        (by simp only [Bool.or_eq_true]; right; rfl) (by rw [hT1]; decide)
    unfold executeRightChain
    simp only [candidateTypes, firstSome, hn, hg]
  | uint8 => cases hR
  | uint16 => cases hR
  | uint32 => cases hR
  | uint64 => cases hR
  | int8 => cases hR
  | int16 => cases hR
  | int32 => cases hR
  | int64 => cases hR
  | float32 => cases hR
  | float64 => cases hR

/-- C5, amended: for well-formed arguments (each column's storage scalar
matching its declared type), `getReturnType` succeeds exactly when `execute`
succeeds structurally (returns normally or fails only on a runtime division
fault), and on success the column written at the result position is built
with the storage scalar of the type `getReturnType` returned — except when
the right argument's declared type is `Date`/`DateTime`, the left is numeric,
and the date overlay marks the combination invalid: there `getReturnType`
throws while `execute` falls through to the right column's underlying
storage scalar and computes numerically. -/
theorem C5_agreement_amended (op : BinOp) (bl : Block) (a0 a1 res : Nat)
    {tL tR : TypeTag}
    (hT0 : (getByPosition bl a0).type = tL)
    (hT1 : (getByPosition bl a1).type = tR)
    (h0 : (getByPosition bl a0).col.tag = fieldType tL)
    (h1 : (getByPosition bl a1).col.tag = fieldType tR)
    (hdate : ¬(isDateOrDateTime tL = false ∧ isDateOrDateTime tR = true ∧
      DateBinaryOperationTraits op tL tR = none)) :
    ((getReturnType op [tL, tR]).isSome = true ↔
      structOkE (execute op bl a0 a1 res) = true) ∧
    (∀ t bl', getReturnType op [tL, tR] = some t → execute op bl a0 a1 res = .ok bl' →
      res < bl.length → (getByPosition bl' res).col.tag = fieldType t) := by
  rw [getReturnType_char, execute_eq_chain hT0 h0]
  by_cases hL : isDateOrDateTime tL = true
  · have hB : BinaryOperationTraits op tL tR = DateBinaryOperationTraits op tL tR := by
      unfold BinaryOperationTraits
      rw [if_pos (by simp [hL])]
    rw [hB]
    have hchar := @chain_char_dateL op tL (matchedOf (getByPosition bl a0).col)
      bl a1 res tR hL hT1 h1
    cases hdt : DateBinaryOperationTraits op tL tR with
    | none =>
      rw [hchar.1 hdt]
      exact ⟨by simp [structOkE], fun t bl' ht => by cases ht⟩
    | some res0 =>
      obtain ⟨out, hchain, hok, htag⟩ := hchar.2 res0 hdt
      rw [hchain]
      refine ⟨by simp [hok], fun t bl' ht hbl hres => ?_⟩
      injection ht with ht
      subst ht
      obtain ⟨c, hct, heq⟩ := htag bl' hbl
      subst heq
      rw [getByPosition_setColumn_self hres]
      exact hct
  · have hL' : isDateOrDateTime tL = false := by
      cases hdd : isDateOrDateTime tL
      · rfl
      · exact absurd hdd hL
    by_cases hR : isDateOrDateTime tR = true
    · cases hdt : DateBinaryOperationTraits op tL tR with
      | none => exact absurd ⟨hL', hR, hdt⟩ hdate
      | some res0 =>
        have hB : BinaryOperationTraits op tL tR = DateBinaryOperationTraits op tL tR := by
          unfold BinaryOperationTraits
          rw [if_pos (by simp [hR])]
        rw [hB, hdt]
        obtain ⟨out, hchain, hok, htag⟩ := @chain_char_numL_dateR op tL
          (matchedOf (getByPosition bl a0).col) bl a1 res tR
          hL' hR hT1 h1 res0 hdt
        rw [hchain]
        refine ⟨by simp [hok], fun t bl' ht hbl hres => ?_⟩
        injection ht with ht
        subst ht
        obtain ⟨c, hct, heq⟩ := htag bl' hbl
        subst heq
        rw [getByPosition_setColumn_self hres]
        exact hct
    · have hR' : isDateOrDateTime tR = false := by
        cases hdd : isDateOrDateTime tR
        · rfl
        · exact absurd hdd hR
      have hB : BinaryOperationTraits op tL tR =
          (opResultTag op (fieldType tL) (fieldType tR)).map dataTypeFromField := by
        unfold BinaryOperationTraits
        rw [if_neg (by simp [hL', hR'])]
      rw [hB]
      have hchar := @chain_char_numL_numR op tL
        (matchedOf (getByPosition bl a0).col) bl a1 res tR hL' hR' hT1 h1
      cases hrt : opResultTag op (fieldType tL) (fieldType tR) with
      | none =>
        rw [hchar.1 hrt]
        exact ⟨by simp [structOkE], fun t bl' ht => by cases ht⟩
      | some rt =>
        obtain ⟨out, hchain, hok, htag⟩ := hchar.2 rt hrt
        rw [hchain]
        refine ⟨by simp [hok], fun t bl' ht hbl hres => ?_⟩
        simp only [Option.map_some] at ht
        injection ht with ht
        subst ht
        obtain ⟨c, hct, heq⟩ := htag bl' hbl
        subst heq
        rw [getByPosition_setColumn_self hres]
        rw [fieldType_dataTypeFromField]
        exact hct

/-- C5, witness: `plus` over `(UInt8 vector, UInt8 constant)` — both phases
succeed, and the written column's scalar is the storage of the returned
`UInt16`. -/
theorem C5_agreement_amended_witness :
    ((getReturnType .plus [.uint8, .uint8]).isSome = true ↔
      structOkE (execute .plus
        [⟨.uint8, .vec .u8 [1, 2, 3], "a"⟩, ⟨.uint8, .const .u8 3 250, "b"⟩,
          ⟨.uint8, .vec .u8 [], "r"⟩] 0 1 2) = true) ∧
    (∀ t bl', getReturnType .plus [.uint8, .uint8] = some t →
      execute .plus
        [⟨.uint8, .vec .u8 [1, 2, 3], "a"⟩, ⟨.uint8, .const .u8 3 250, "b"⟩,
          ⟨.uint8, .vec .u8 [], "r"⟩] 0 1 2 = .ok bl' →
      2 < ([⟨.uint8, .vec .u8 [1, 2, 3], "a"⟩, ⟨.uint8, .const .u8 3 250, "b"⟩,
          ⟨.uint8, .vec .u8 [], "r"⟩] : Block).length →
      (getByPosition bl' 2).col.tag = fieldType t) :=
  C5_agreement_amended .plus
    [⟨.uint8, .vec .u8 [1, 2, 3], "a"⟩, ⟨.uint8, .const .u8 3 250, "b"⟩,
      ⟨.uint8, .vec .u8 [], "r"⟩] 0 1 2
    (by decide) (by decide) (by decide) (by decide) (by decide)
